import Mathlib

set_option maxRecDepth 16384

/-!
Verification of the discovery-and-evaluation pipeline of the
`crawler_market_mobile` repository, against its natural-language spec.

The Python sources (`app_market_agent/ai_analyzer.py`,
`app_market_agent/store_scraper.py`, `app_market_agent/server.py`) are
shallowly embedded below.  External effects (the LLM call, HTTP requests,
`random.shuffle`, the database row) are parameters (oracles) of the
embedded functions; everything the repository's own code computes is
translated directly.  Text is modelled as `List Char`; Python dicts (which
preserve insertion order and update in place) are association lists.
-/

/-! ### Generic text helpers (models of the Python string operations used) -/

/-- Whitespace recognised by Python `str.strip` (ASCII subset; the sources
only ever strip ASCII whitespace). -/
def isWsChar (c : Char) : Bool :=
  c = ' ' || c = '\t' || c = '\n' || c = '\r' || c = '\x0b' || c = '\x0c'

/-- Remove trailing whitespace (model of Python `str.rstrip`). -/
def rstripWs : List Char → List Char
  | [] => []
  | c :: cs =>
    let r := rstripWs cs
    if r.isEmpty && isWsChar c then [] else c :: r

/-- Model of Python `str.strip()`: drop leading and trailing whitespace. -/
def pyStrip (cs : List Char) : List Char :=
  rstripWs (cs.dropWhile isWsChar)

/-- `isPre p l` is true when `p` is an initial segment of `l`. -/
def isPre : List Char → List Char → Bool
  | [], _ => true
  | _ :: _, [] => false
  | p :: ps, c :: cs => p = c && isPre ps cs

/-- Model of the Python substring test `pat in s`. -/
def containsSub (pat : List Char) : List Char → Bool
  | [] => isPre pat []
  | c :: cs => isPre pat (c :: cs) || containsSub pat cs

/-- Deletion loop of `deleteAll`, driven by a fuel that bounds the input
length (the fuel case 0 is unreachable when the fuel is adequate, since a
non-empty match consumes at least one character). -/
def deleteAllAux (pat : List Char) : Nat → List Char → List Char
  | 0, cs => cs
  | fuel + 1, cs =>
    match cs with
    | [] => []
    | c :: cs' =>
      if pat ≠ [] ∧ isPre pat (c :: cs') then
        deleteAllAux pat fuel ((c :: cs').drop pat.length)
      else
        c :: deleteAllAux pat fuel cs'

/-- Model of Python `s.replace(pat, "")`: delete all (leftmost,
non-overlapping) occurrences of `pat`.  The sources only ever replace with
the empty string. -/
def deleteAll (pat : List Char) (cs : List Char) : List Char :=
  deleteAllAux pat cs.length cs

/-- Value of a digit string. -/
def digitsToNat (ds : List Char) : Nat :=
  ds.foldl (fun n c => 10 * n + (c.toNat - '0'.toNat)) 0

/-- Model of Python `int(s)` (returned in `Option`; `none` models
`ValueError`).  Python strips surrounding whitespace and accepts an
optional sign followed by digits; the underscore-separator extension is
not modelled (no rating label uses it). -/
def parsePyInt (s : String) : Option Int :=
  match pyStrip s.toList with
  | '-' :: ds => if ds ≠ [] ∧ ds.all Char.isDigit then some (-(digitsToNat ds : Int)) else none
  | '+' :: ds => if ds ≠ [] ∧ ds.all Char.isDigit then some (digitsToNat ds) else none
  | ds => if ds ≠ [] ∧ ds.all Char.isDigit then some (digitsToNat ds) else none

/-! ### Association lists: the model of Python `dict`
(insertion order preserved, update in place, append when the key is new) -/

/-- `dict` lookup. -/
def alookup (m : List (String × β)) (k : String) : Option β :=
  match m with
  | [] => none
  | (k', v) :: rest => if k' = k then some v else alookup rest k

/-- `dict` key list, in insertion order (`list(d.keys())`). -/
def akeys (m : List (String × β)) : List String :=
  m.map Prod.fst

/-- Model of Python `str.lower()` (the sources lower-case only ASCII
country codes and platform names).  Defined on the character list so that
it evaluates by kernel reduction. -/
def pyLower (s : String) : String :=
  String.mk (s.toList.map Char.toLower)

/-- `d[k] = v`: update in place when present, append when new. -/
def ainsert (m : List (String × β)) (k : String) (v : β) : List (String × β) :=
  match m with
  | [] => [(k, v)]
  | (k', v') :: rest => if k' = k then (k, v) :: rest else (k', v') :: ainsert rest k v

/-! ### A small JSON value model and parser

Model of Python `json.loads`, restricted to the JSON subset the judgment
responses exercise: objects, arrays, strings (with simple escapes),
booleans, `null` and integer numerals.  Fractions, exponents and `\u`
escapes are left out; no claim depends on them. -/

inductive Json where
  | null
  | bool (b : Bool)
  | num (n : Int)
  | str (s : String)
  | arr (xs : List Json)
  | obj (kvs : List (String × Json))

/-- JSON whitespace skipping. -/
def skipWs (cs : List Char) : List Char :=
  cs.dropWhile isWsChar

/-- Unescape a character appearing after a backslash in a JSON string. -/
def unescapeChar (c : Char) : Char :=
  if c = 'n' then '\n'
  else if c = 't' then '\t'
  else if c = 'r' then '\r'
  else c

/-- Parse the body of a JSON string (the opening quote already consumed). -/
def parseStrAux : List Char → List Char → Option (String × List Char)
  | _, [] => none
  | acc, '"' :: rest => some (String.mk acc.reverse, rest)
  | acc, '\\' :: c :: rest => parseStrAux (unescapeChar c :: acc) rest
  | _, '\\' :: [] => none
  | acc, c :: rest => parseStrAux (c :: acc) rest

/-- Parse an integer numeral. -/
def parseNum (cs : List Char) : Option (Json × List Char) :=
  match cs with
  | '-' :: rest =>
    let ds := rest.takeWhile Char.isDigit
    if ds.isEmpty then none
    else some (Json.num (-(digitsToNat ds : Int)), rest.dropWhile Char.isDigit)
  | _ =>
    let ds := cs.takeWhile Char.isDigit
    if ds.isEmpty then none
    else some (Json.num (digitsToNat ds), cs.dropWhile Char.isDigit)

mutual

/-- Fuel-driven recursive-descent JSON parser. -/
def parseJson : Nat → List Char → Option (Json × List Char)
  | 0, _ => none
  | fuel + 1, cs0 =>
    match skipWs cs0 with
    | [] => none
    | c :: rest =>
      if c = 'n' then
        if isPre ['u', 'l', 'l'] rest then some (Json.null, rest.drop 3) else none
      else if c = 't' then
        if isPre ['r', 'u', 'e'] rest then some (Json.bool true, rest.drop 3) else none
      else if c = 'f' then
        if isPre ['a', 'l', 's', 'e'] rest then some (Json.bool false, rest.drop 4) else none
      else if c = '"' then
        match parseStrAux [] rest with
        | some (s, r) => some (Json.str s, r)
        | none => none
      else if c = '[' then parseArr fuel rest
      else if c = '\x7b' then parseObjBody fuel rest
      else if c.isDigit || c = '-' then parseNum (c :: rest)
      else none

/-- Parse an array body (the `[` already consumed). -/
def parseArr : Nat → List Char → Option (Json × List Char)
  | 0, _ => none
  | fuel + 1, cs =>
    match skipWs cs with
    | ']' :: rest => some (Json.arr [], rest)
    | _ =>
      match parseJson fuel cs with
      | some (v, r) => parseArrRest fuel [v] r
      | none => none

/-- Parse the remaining elements of an array after the first. -/
def parseArrRest : Nat → List Json → List Char → Option (Json × List Char)
  | 0, _, _ => none
  | fuel + 1, acc, cs =>
    match skipWs cs with
    | ',' :: rest =>
      match parseJson fuel rest with
      | some (v, r) => parseArrRest fuel (acc ++ [v]) r
      | none => none
    | ']' :: rest => some (Json.arr acc, rest)
    | _ => none

/-- Parse an object body (the `{` already consumed). -/
def parseObjBody : Nat → List Char → Option (Json × List Char)
  | 0, _ => none
  | fuel + 1, cs =>
    match skipWs cs with
    | '\x7d' :: rest => some (Json.obj [], rest)
    | '"' :: rest =>
      match parseStrAux [] rest with
      | some (k, r) =>
        match skipWs r with
        | ':' :: r2 =>
          match parseJson fuel r2 with
          | some (v, r3) => parseObjRest fuel [(k, v)] r3
          | none => none
        | _ => none
      | none => none
    | _ => none

/-- Parse the remaining members of an object after the first. -/
def parseObjRest : Nat → List (String × Json) → List Char → Option (Json × List Char)
  | 0, _, _ => none
  | fuel + 1, acc, cs =>
    match skipWs cs with
    | ',' :: rest =>
      match skipWs rest with
      | '"' :: r =>
        match parseStrAux [] r with
        | some (k, r2) =>
          match skipWs r2 with
          | ':' :: r3 =>
            match parseJson fuel r3 with
            | some (v, r4) => parseObjRest fuel (acc ++ [(k, v)]) r4
            | none => none
          | _ => none
        | none => none
      | _ => none
    | '\x7d' :: rest => some (Json.obj acc, rest)
    | _ => none

end

/-- The two parse-failure messages our `json.loads` model produces
(mirroring the leading words of `json.JSONDecodeError` texts). -/
def expectingValueText : List Char := "Expecting value".toList

def extraDataText : List Char := "Extra data".toList

/-- Model of `json.loads`: parse one JSON value and require only trailing
whitespace after it. -/
def jsonLoads (cs : List Char) : Except (List Char) Json :=
  match parseJson (2 * cs.length + 4) cs with
  | some (v, rest) =>
    if (skipWs rest).isEmpty then Except.ok v else Except.error extraDataText
  | none => Except.error expectingValueText

/-- Object field access (`result["k"]` / `result.get("k")`). -/
def jlookup (v : Json) (k : String) : Option Json :=
  match v with
  | Json.obj kvs => alookup kvs k
  | _ => none

/-! ### `ai_analyzer.py` — `AIAnalyzer`

`_safe_generate`, `evaluate_app_potential` and `evaluate_deep_reviews`.
The external judgment call `self.model.generate_content(prompt).text` is
an oracle `calls : Nat → CallResult` giving, for each attempt index, either
the response text or the message of the exception the attempt raised. -/

/-- Outcome of one `generate_content` attempt. -/
inductive CallResult where
  | ok (text : List Char)
  | err (msg : List Char)
deriving DecidableEq

/-- The `"429"` marker `_safe_generate` looks for in error messages. -/
def rateLimitMark : List Char := "429".toList

/-- Message of the exception raised after exhausting all retries. -/
def quotaText : List Char :=
  "Analysis failed after retries due to token/quota limits.".toList

/-- The marker `evaluate_app_potential` uses to re-raise quota exhaustion. -/
def tokenQuotaMark : List Char := "token/quota limits".toList

/-- Text returned for a non-retryable error (`f"Analysis failed: {error_msg}"`). -/
def analysisFailedText (msg : List Char) : List Char :=
  "Analysis failed: ".toList ++ msg

/-- Result of `_safe_generate`: `outcome` is `Except.error` when the quota
exception is raised and `Except.ok` when a text is returned; `backoffSleeps`
records the `time.sleep(20 * (attempt + 1))` calls in order;
`cooldownSleeps` records the fixed `time.sleep(4)` after a successful call;
`callsMade` counts `generate_content` invocations. -/
structure SafeGenOut where
  outcome : Except (List Char) (List Char)
  backoffSleeps : List Nat
  cooldownSleeps : List Nat
  callsMade : Nat

/-- The retry loop of `_safe_generate` (`for attempt in range(retries)`),
with `remaining = retries - attempt`. -/
def safeGenAux (calls : Nat → CallResult) :
    Nat → Nat → List Nat → Nat → SafeGenOut
  | 0, _, sleeps, made => ⟨Except.error quotaText, sleeps, [], made⟩
  | remaining + 1, attempt, sleeps, made =>
    match calls attempt with
    | CallResult.ok t => ⟨Except.ok (pyStrip t), sleeps, [4], made + 1⟩
    | CallResult.err msg =>
      if containsSub rateLimitMark msg then
        safeGenAux calls remaining (attempt + 1) (sleeps ++ [20 * (attempt + 1)]) (made + 1)
      else
        ⟨Except.ok (analysisFailedText msg), sleeps, [], made + 1⟩

/-- `AIAnalyzer._safe_generate` with the default `retries = 3`. -/
def safeGenerate (calls : Nat → CallResult) : SafeGenOut :=
  safeGenAux calls 3 0 [] 0

/-- The markdown-fence cleanup in `evaluate_app_potential`:
`response_text.replace("```json", "").replace("```", "").strip()`. -/
def cleanText (t : List Char) : List Char :=
  pyStrip (deleteAll ("```".toList) (deleteAll ("```json".toList) t))

/-- Key strings of the verdict object. -/
def isApprovedKey : String := "is_approved"

def errorKey : String := "error"

def passKey : String := "pass"

def nicheMarketKey : String := "niche_market"

def revenueModelKey : String := "revenue_model"

def simplicityKey : String := "simplicity"

/-- The failure verdict `{"is_approved": False, "error": str(e)}`. -/
def errVerdict (e : List Char) : Json :=
  Json.obj [(isApprovedKey, Json.bool false), (errorKey, Json.str (String.mk e))]

/-- What `evaluate_app_potential` does: raise (re-raise the quota
exception) or return a verdict dictionary. -/
inductive EvalOutcome where
  | raised (msg : List Char)
  | verdict (v : Json)

/-- Result of `evaluate_app_potential`, together with the observable
retry/backoff behaviour of the `_safe_generate` call it made. -/
structure EvalOut where
  outcome : EvalOutcome
  backoffSleeps : List Nat
  callsMade : Nat

/-- `AIAnalyzer.evaluate_app_potential`.  The prompt depends only on the
app metadata and does not influence control flow, so it is not a
parameter.  The `try`/`except` re-raises exactly the exceptions whose
message contains `"token/quota limits"`; every other exception becomes the
failure verdict. -/
def evaluateAppPotential (calls : Nat → CallResult) : EvalOut :=
  let g := safeGenerate calls
  match g.outcome with
  | Except.error emsg =>
    if containsSub tokenQuotaMark emsg then ⟨EvalOutcome.raised emsg, g.backoffSleeps, g.callsMade⟩
    else ⟨EvalOutcome.verdict (errVerdict emsg), g.backoffSleeps, g.callsMade⟩
  | Except.ok text =>
    match jsonLoads (cleanText text) with
    | Except.ok v => ⟨EvalOutcome.verdict v, g.backoffSleeps, g.callsMade⟩
    | Except.error pe =>
      if containsSub tokenQuotaMark pe then ⟨EvalOutcome.raised pe, g.backoffSleeps, g.callsMade⟩
      else ⟨EvalOutcome.verdict (errVerdict pe), g.backoffSleeps, g.callsMade⟩

/-- Reading the verdict's approved flag (`result["is_approved"]` as the
orchestrator consumes it); anything other than a boolean reads as `false`. -/
def approvedOf (v : Json) : Bool :=
  match jlookup v isApprovedKey with
  | some (Json.bool b) => b
  | _ => false

/-- Reading one sub-criterion's pass flag (`result[k]["pass"]`). -/
def subPass (v : Json) (k : String) : Bool :=
  match jlookup v k with
  | some sub =>
    match jlookup sub passKey with
    | some (Json.bool b) => b
    | _ => false
  | none => false

/-! `evaluate_deep_reviews` -/

/-- One harvested review record (`{'rating': ..., 'review': ..., 'date': ...}`). -/
structure ReviewRecord where
  rating : Int
  review : String
  date : String
deriving DecidableEq

/-- Placeholder returned for an empty review list. -/
def noReviewsPainText : String := "수집된 부정적 리뷰가 없습니다."

/-- Placeholder returned for an empty review list. -/
def noReviewsFeaturesText : String := "제안된 신규 기능 내용이 없습니다."

def extractFailText : String := "추출 실패"

def analysisFailText : String := "분석 실패"

def errDuringText (e : List Char) : String :=
  String.mk ("분석 중 에러 발생: ".toList ++ e)

/-- Message standing in for the `AttributeError` Python raises when
`.get` is called on a non-dict `json.loads` result. -/
def noAttributeGetText : List Char := "object has no attribute get".toList

def painPointsKey : String := "pain_points"

def requestedFeaturesKey : String := "requested_features"

/-- The markdown cleanup in `evaluate_deep_reviews`: two `startswith`-guarded
replaces of the fenced variants, then an unconditional replace and strip. -/
def cleanDeep (t : List Char) : List Char :=
  let t1 := if isPre ("```json".toList) t then deleteAll ("```json\n".toList) t else t
  let t2 := if isPre ("```".toList) t1 then deleteAll ("```\n".toList) t1 else t1
  pyStrip (deleteAll ("```".toList) t2)

/-- Result of `evaluate_deep_reviews` plus its judgment-call count. -/
structure DeepOut where
  painPoints : Json
  requestedFeatures : Json
  callsMade : Nat

/-- `AIAnalyzer.evaluate_deep_reviews`.  Its `try`/`except` swallows every
exception (including quota exhaustion) into an error pair.  Note: in the
source, `json` is imported only inside `evaluate_app_potential`, so the
`json.loads` here would raise `NameError` at runtime and land in the
`except` branch; we model the intended `json.loads` call, which no claim
distinguishes. -/
def evaluateDeepReviews (gen : Nat → CallResult) (negativeReviews : List ReviewRecord) :
    DeepOut :=
  if negativeReviews.isEmpty then
    ⟨Json.str noReviewsPainText, Json.str noReviewsFeaturesText, 0⟩
  else
    let g := safeGenerate gen
    match g.outcome with
    | Except.error e => ⟨Json.str (errDuringText e), Json.str analysisFailText, g.callsMade⟩
    | Except.ok text =>
      match jsonLoads (cleanDeep text) with
      | Except.ok (Json.obj kvs) =>
        ⟨(alookup kvs painPointsKey).getD (Json.str extractFailText),
         (alookup kvs requestedFeaturesKey).getD (Json.str extractFailText),
         g.callsMade⟩
      | Except.ok _ =>
        ⟨Json.str (errDuringText noAttributeGetText), Json.str analysisFailText, g.callsMade⟩
      | Except.error e => ⟨Json.str (errDuringText e), Json.str analysisFailText, g.callsMade⟩

/-! ### `store_scraper.py` — `StoreScraper.get_app_reviews` (ReviewHarvester)

The RSS page fetch `requests.get(url).json()['feed']['entry']` is an
oracle `feed : Nat → PageResult` indexed by page number. -/

/-- One feed entry.  `imRating` is `entry['im:rating']['label']` as a
nested optional: the outer `none` models a missing `im:rating` key (a
store-metadata entry), the inner `none` a rating dict without a label
(defaulted to `"5"`).  `contentLabel` and `updatedLabel` model
`entry.get('content', {}).get('label', '')` and
`entry.get('updated', {}).get('label', '')`. -/
structure Entry where
  imRating : Option (Option String)
  contentLabel : Option String
  updatedLabel : Option String
deriving DecidableEq

/-- Outcome of fetching one review page.  `exn` models an exception raised
by `requests.get`/`response.json()` (caught by the surrounding
`try`/`except`); `httpError` models `status_code != 200`; `ok` carries the
entry list (`data.get('feed', {}).get('entry', [])`, with the singleton
dict already normalised to a one-element list, and a missing key to `[]`). -/
inductive PageResult where
  | exn
  | httpError
  | ok (entries : List Entry)
deriving DecidableEq

/-- The default rating label. -/
def ratingDefaultLabel : String := "5"

/-- The inner entries loop of `get_app_reviews`: skip unrated entries,
parse the rating (defaulting to 5 on `ValueError`), keep ratings ≤ 3, and
break as soon as 100 reviews are collected. -/
def harvestEntries (acc : List ReviewRecord) : List Entry → List ReviewRecord
  | [] => acc
  | e :: es =>
    match e.imRating with
    | none => harvestEntries acc es
    | some lbl =>
      let rating := (parsePyInt (lbl.getD ratingDefaultLabel)).getD 5
      let acc' :=
        if rating ≤ 3 then
          acc ++ [⟨rating, (e.contentLabel.getD ""), (e.updatedLabel.getD "")⟩]
        else acc
      if 100 ≤ acc'.length then acc' else harvestEntries acc' es

/-- The page loop of `get_app_reviews` (`for page in range(1, 11)`), with
`remaining = 11 - page`.  `none` models an exception escaping the loop to
the outer `except` handler. -/
def harvestPages (feed : Nat → PageResult) :
    Nat → Nat → List ReviewRecord → Option (List ReviewRecord)
  | 0, _, acc => some acc
  | remaining + 1, page, acc =>
    match feed page with
    | PageResult.exn => none
    | PageResult.httpError => some acc
    | PageResult.ok entries =>
      if entries.isEmpty then some acc
      else
        let acc' := harvestEntries acc entries
        if 100 ≤ acc'.length then some acc'
        else harvestPages feed remaining (page + 1) acc'

/-- `StoreScraper.get_app_reviews`: run the page loop over pages 1..10;
an escaping exception is caught and turned into `[]`. -/
def getAppReviews (feed : Nat → PageResult) : List ReviewRecord :=
  (harvestPages feed 10 1 []).getD []

/-! ### `store_scraper.py` — `StoreScraper.get_top_target_apps` (CandidateCollector)

`_search_itunes_by_keyword` (the HTTP search including its Games-genre
filter and `limit=10` cap) is an oracle
`search : String → String → List (SearchApp α)`; the per-country metadata
dict built from an entry's fields is abstracted as one value of type `α`.
`random.shuffle` is an oracle `shuffle` (the theorems assume only that it
permutes its input), and `random.sample` for the no-keywords branch is the
oracle `sampleKeywords`. -/

/-- One search result: its store id and its country metadata. -/
structure SearchApp (α : Type) where
  appId : String
  meta : α
deriving DecidableEq

/-- A merged candidate record as built by `get_top_target_apps`. -/
structure Candidate (α : Type) where
  platform : String
  appStoreId : String
  sourceKeyword : String
  countryData : List (String × α)
deriving DecidableEq

def iosPlatform : String := "ios"

/-- Processing one search result inside the merge loop: create the
candidate when its id is unseen, then unconditionally set this country's
metadata (`merged_apps[app_id]["country_data"][country] = {...}`). -/
def candStep (keyword country : String) (m : List (String × Candidate α))
    (app : SearchApp α) : List (String × Candidate α) :=
  let m1 :=
    match alookup m app.appId with
    | some _ => m
    | none => ainsert m app.appId ⟨iosPlatform, app.appId, keyword, []⟩
  match alookup m1 app.appId with
  | some cand =>
    ainsert m1 app.appId { cand with countryData := ainsert cand.countryData country app.meta }
  | none => m1

/-- The per-(keyword, country) loop body. -/
def candCountry (search : String → String → List (SearchApp α))
    (keyword country : String) (m : List (String × Candidate α)) :
    List (String × Candidate α) :=
  (search keyword country).foldl (candStep keyword country) m

/-- The inner country loop of `get_top_target_apps`. -/
def candCountries (search : String → String → List (SearchApp α))
    (keyword : String) (countries : List String)
    (m : List (String × Candidate α)) : List (String × Candidate α) :=
  countries.foldl (fun acc c => candCountry search keyword c acc) m

/-- The outer keyword loop, with its early `break` once the pool cap is
reached. -/
def candKeywords (search : String → String → List (SearchApp α))
    (maxPool : Nat) (countries : List String) :
    List String → List (String × Candidate α) → List (String × Candidate α)
  | [], m => m
  | kw :: kws, m =>
    if maxPool ≤ m.length then m
    else candKeywords search maxPool countries kws (candCountries search kw countries m)

def defaultCountries : List String := ["us"]

/-- `StoreScraper.get_top_target_apps`: default the country list, choose
provided keywords over a random sample, merge by store id, shuffle and
truncate to the pool cap. -/
def getTopTargetApps (search : String → String → List (SearchApp α))
    (shuffle : List (Candidate α) → List (Candidate α))
    (sampleKeywords : List String) (maxPool : Nat)
    (keywords countries : List String) : List (Candidate α) :=
  let cs := if countries.isEmpty then defaultCountries else countries
  let kws := if keywords.isEmpty then sampleKeywords else keywords
  let merged := candKeywords search maxPool cs kws []
  (shuffle (merged.map Prod.snd)).take maxPool

/-! ### `server.py` — `fetch_country_info` (CountryEnrichment)

`store_scraper.lookup_app_by_id` is an oracle
`lookupApp : String → String → Option α` (store id, country ↦ metadata).
The database row is the `AppItem` value passed in and returned; the 404
branch (app id missing from the database) is outside the embedded body. -/

/-- A per-country entry of the candidate's country map: full metadata or
the cached not-found marker `{"not_found": True}`. -/
inductive CountryEntry (α : Type) where
  | meta (m : α)
  | notFound
deriving DecidableEq

/-- The fields of the `AppItem` row that `fetch_country_info` and
`collect_detail` read, with `country_data` already JSON-decoded. -/
structure AppItem (α : Type) where
  platform : String
  appStoreId : String
  title : String
  countryData : List (String × CountryEntry α)
deriving DecidableEq

/-- The response branch taken by `fetch_country_info`. -/
inductive FetchStatus (α : Type) where
  | unsupported
  | cached (v : CountryEntry α)
  | fetched (m : α)
  | notAvailable
deriving DecidableEq

/-- Result of `fetch_country_info`: the branch taken, the (possibly
updated) row, and how many external lookups were performed. -/
structure FetchOut (α : Type) where
  status : FetchStatus α
  item : AppItem α
  lookupsPerformed : Nat
deriving DecidableEq

/-- `fetch_country_info`: lower-case the target country, reject non-iOS
rows, short-circuit on an existing key (metadata or not-found marker),
otherwise look up once and cache either the metadata or the not-found
marker. -/
def fetchCountryInfo (lookupApp : String → String → Option α)
    (item : AppItem α) (targetCountry : String) : FetchOut α :=
  let tc := pyLower targetCountry
  if pyLower item.platform ≠ iosPlatform ∨ item.appStoreId = "" then
    ⟨FetchStatus.unsupported, item, 0⟩
  else
    match alookup item.countryData tc with
    | some v => ⟨FetchStatus.cached v, item, 0⟩
    | none =>
      match lookupApp item.appStoreId tc with
      | some m =>
        ⟨FetchStatus.fetched m,
         { item with countryData := ainsert item.countryData tc (CountryEntry.meta m) }, 1⟩
      | none =>
        ⟨FetchStatus.notAvailable,
         { item with countryData := ainsert item.countryData tc CountryEntry.notFound }, 1⟩

/-! ### `server.py` — `collect_detail` (deep-analysis enrichment)

`store_scraper.get_app_reviews` is the oracle
`getReviews : String → String → String → List ReviewRecord`
(store id, title, country); the judgment calls made by
`ai_analyzer.evaluate_deep_reviews` for each scraped country use the
per-country attempt oracle `gen : String → Nat → CallResult`. -/

/-- One country's deep-analysis entry
(`{"raw_reviews_data": ..., "pain_points": ..., "requested_features": ...}`). -/
structure DeepEntry where
  rawReviewsData : List ReviewRecord
  painPoints : Json
  requestedFeatures : Json

def insufficientPainText : String :=
  "부정적 리뷰(1~3점)를 충분히 찾지 못했거나 리뷰 API 에러가 발생했습니다."

def insufficientFeaturesText : String := "수집된 데이터가 부족합니다."

/-- Body of the per-country loop of `collect_detail`: skip countries with
no base metadata, scrape reviews (iOS only), run the deep analysis when
any were found, and overwrite this country's entry of the detail map. -/
def collectDetailCountry (getReviews : String → String → String → List ReviewRecord)
    (gen : String → Nat → CallResult) (item : AppItem α)
    (detail : List (String × DeepEntry)) (country : String) :
    List (String × DeepEntry) :=
  if (alookup item.countryData country).isNone then detail
  else
    let reviews :=
      if pyLower item.platform = iosPlatform ∧ item.appStoreId ≠ "" then
        getReviews item.appStoreId item.title country
      else []
    if reviews.isEmpty then
      ainsert detail country
        ⟨reviews, Json.str insufficientPainText, Json.str insufficientFeaturesText⟩
    else
      let d := evaluateDeepReviews (gen country) reviews
      ainsert detail country ⟨reviews, d.painPoints, d.requestedFeatures⟩

def recollectedMsg : String := "Data recollected successfully"

def collectedMsg : String := "Data collected successfully"

/-- `collect_detail`: decide the countries to scrape (the single target
country when one is supplied and non-empty — Python truthiness — else every
country of the base metadata map), fold the per-country body over them
starting from the existing detail map, and report whether an existing row
was updated or a new one created. -/
def collectDetail (getReviews : String → String → String → List ReviewRecord)
    (gen : String → Nat → CallResult) (item : AppItem α)
    (existingDetail : Option (List (String × DeepEntry)))
    (targetCountry : Option String) : String × List (String × DeepEntry) :=
  let detail0 := existingDetail.getD []
  let toScrape :=
    match targetCountry with
    | some c => if c = "" then akeys item.countryData else [c]
    | none => akeys item.countryData
  let final := toScrape.foldl (collectDetailCountry getReviews gen item) detail0
  (if existingDetail.isSome then recollectedMsg else collectedMsg, final)

/-- Classification of one attempt outcome as a rate-limit failure
(an exception whose message contains `"429"`). -/
def isRateLimitErr : CallResult → Bool
  | CallResult.ok _ => false
  | CallResult.err m => containsSub rateLimitMark m

/-- Concrete attempt oracle: every call raises a rate-limit error. -/
def quotaCalls : Nat → CallResult :=
  fun _ => CallResult.err ("HTTP 429: quota exceeded".toList)

/-- Concrete attempt oracle: the first call raises a non-rate-limit error. -/
def hardFailCalls : Nat → CallResult :=
  fun _ => CallResult.err ("boom".toList)

/-- A concrete judgment response whose top-level `is_approved` is `true`
while the `revenue_model` sub-criterion has `pass: false`. -/
def inconsistentResponseText : String :=
  "\x7b\"is_approved\": true, \"niche_market\": \x7b\"pass\": true, \"reason\": \"a\"\x7d, \"revenue_model\": \x7b\"pass\": false, \"reason\": \"b\"\x7d, \"simplicity\": \x7b\"pass\": true, \"reason\": \"c\"\x7d\x7d"

/-- Attempt oracle returning the inconsistent response on the first call. -/
def inconsistentCalls : Nat → CallResult :=
  fun _ => CallResult.ok inconsistentResponseText.toList

/-- The parsed value of `inconsistentResponseText`. -/
def inconsistentVerdict : Json :=
  Json.obj
    [(isApprovedKey, Json.bool true),
     (nicheMarketKey, Json.obj [(passKey, Json.bool true), ("reason", Json.str "a")]),
     (revenueModelKey, Json.obj [(passKey, Json.bool false), ("reason", Json.str "b")]),
     (simplicityKey, Json.obj [(passKey, Json.bool true), ("reason", Json.str "c")])]

/-- Attempt oracle returning an empty JSON object. -/
def emptyObjCalls : Nat → CallResult :=
  fun _ => CallResult.ok ("\x7b\x7d".toList)

/-! Spec-side observers for the review harvester. -/

/-- The negative-review record one entry contributes, if any: entries
without a rating key contribute nothing, the rating label is parsed with
default 5, and only ratings ≤ 3 qualify.  (This mirrors the body of the
harvest loop entry by entry.) -/
def negativeOfEntry (e : Entry) : Option ReviewRecord :=
  match e.imRating with
  | none => none
  | some lbl =>
    let rating := (parsePyInt (lbl.getD ratingDefaultLabel)).getD 5
    if rating ≤ 3 then
      some ⟨rating, (e.contentLabel.getD ""), (e.updatedLabel.getD "")⟩
    else none

/-- All negative reviews a page's entry list holds, in order. -/
def negativesOfEntries (es : List Entry) : List ReviewRecord :=
  es.filterMap negativeOfEntry

/-- The negative reviews one feed page holds. -/
def pageNegs (feed : Nat → PageResult) (p : Nat) : List ReviewRecord :=
  match feed p with
  | PageResult.ok es => negativesOfEntries es
  | _ => []

/-- The negative reviews held by `cnt` consecutive pages starting at
`page`. -/
def negsRange (feed : Nat → PageResult) (page cnt : Nat) : List ReviewRecord :=
  (List.range' page cnt).flatMap (pageNegs feed)

/-- A well-formed feed with `j` data pages: pages `1..j` respond with
non-empty entry lists and, when `j < 10`, page `j+1` responds empty (pages
past the first empty one are never consulted). -/
def wfFeed (feed : Nat → PageResult) (j : Nat) : Prop :=
  (∀ p, 1 ≤ p → p ≤ j → ∃ es, feed p = PageResult.ok es ∧ es.isEmpty = false)
  ∧ (j < 10 → feed (j + 1) = PageResult.ok [])

/-- The negative reviews a well-formed feed with `j` data pages holds
within the pages `1..10` the harvester visits. -/
def negsUpTo (feed : Nat → PageResult) (j : Nat) : List ReviewRecord :=
  negsRange feed 1 (min j 10)

/-- A concrete entry carrying a 1-star review. -/
def negEntry : Entry := ⟨some (some "1"), some "bad", some "d"⟩

/-- Concrete feed: one data page, then an exception on page 2. -/
def exnFeed : Nat → PageResult :=
  fun p =>
    if p = 1 then PageResult.ok [negEntry]
    else if p = 2 then PageResult.exn
    else PageResult.ok []

/-- Concrete feed: one data page, then a non-200 status on page 2. -/
def httpStopFeed : Nat → PageResult :=
  fun p =>
    if p = 1 then PageResult.ok [negEntry]
    else if p = 2 then PageResult.httpError
    else PageResult.ok []

/-- Concrete well-formed feed: one data page, empty afterwards. -/
def onePageFeed : Nat → PageResult :=
  fun p => if p = 1 then PageResult.ok [negEntry] else PageResult.ok []

/-! Spec-side observers and concrete inputs for the collector. -/

/-- One collection event: a (keyword, country, search-result) triple, in
the order the nested loops of `get_top_target_apps` visit them. -/
def candStepEv (m : List (String × Candidate α)) (ev : String × String × SearchApp α) :
    List (String × Candidate α) :=
  candStep ev.1 ev.2.1 m ev.2.2

/-- The flattened event stream of the keyword × country × result loops. -/
def eventsOf (search : String → String → List (SearchApp α))
    (keywords countries : List String) : List (String × String × SearchApp α) :=
  keywords.flatMap (fun kw => countries.flatMap (fun c =>
    (search kw c).map (fun a => (kw, c, a))))

/-- Every store id returned by any (keyword, country) search, with
multiplicity, in visit order. -/
def allIds (search : String → String → List (SearchApp α))
    (keywords countries : List String) : List String :=
  keywords.flatMap (fun kw => countries.flatMap (fun c =>
    (search kw c).map (fun a => a.appId)))

/-- Invariant of the merge map after processing a list of events: keys are
distinct; a key is present exactly when some processed event carried it;
and each stored candidate is an iOS record keyed by its own store id,
stamped with the keyword of the first event that carried the id, holding a
country key exactly for the countries of the events that carried the id. -/
def MergedInv (events : List (String × String × SearchApp α))
    (m : List (String × Candidate α)) : Prop :=
  (akeys m).Nodup
  ∧ (∀ id, (alookup m id).isSome ↔ id ∈ events.map (fun ev => ev.2.2.appId))
  ∧ (∀ id cand, alookup m id = some cand →
      cand.platform = iosPlatform
      ∧ cand.appStoreId = id
      ∧ (events.find? (fun ev => ev.2.2.appId == id)).map (fun ev => ev.1)
          = some cand.sourceKeyword
      ∧ (∀ c, c ∈ akeys cand.countryData
          ↔ ∃ ev ∈ events, ev.2.2.appId = id ∧ ev.2.1 = c))

/-- The spec's collector scenario: one keyword, two countries, both
returning the same store id `"111"`. -/
def scenarioSearch : String → String → List (SearchApp Unit) :=
  fun kw c =>
    if kw = "Visual Timer" ∧ (c = "us" ∨ c = "kr") then [⟨"111", ()⟩] else []

/-- A search oracle that returns one hit for every query. -/
def constSearch : String → String → List (SearchApp Unit) :=
  fun _ _ => [⟨"7", ()⟩]

/-! ### Association-list lemmas -/

theorem alookup_ainsert_self (m : List (String × β)) (k : String) (v : β) :
    alookup (ainsert m k v) k = some v := by
  induction m with
  | nil => simp [ainsert, alookup]
  | cons p rest ih =>
    obtain ⟨k', v'⟩ := p
    by_cases h : k' = k
    · simp [ainsert, h, alookup]
    · simp [ainsert, h, alookup, ih]

theorem alookup_ainsert_ne (m : List (String × β)) (k k' : String) (v : β)
    (h : k' ≠ k) : alookup (ainsert m k v) k' = alookup m k' := by
  have hk : ¬ k = k' := fun e => h e.symm
  induction m with
  | nil => simp [ainsert, alookup, hk]
  | cons p rest ih =>
    obtain ⟨k0, v0⟩ := p
    by_cases h0 : k0 = k
    · subst h0
      simp [ainsert, alookup, hk]
    · simp [ainsert, h0, alookup, ih]

theorem mem_akeys_ainsert (m : List (String × β)) (k k' : String) (v : β) :
    k' ∈ akeys (ainsert m k v) ↔ k' ∈ akeys m ∨ k' = k := by
  induction m with
  | nil => simp [ainsert, akeys]
  | cons p rest ih =>
    obtain ⟨k0, v0⟩ := p
    by_cases h0 : k0 = k
    · subst h0
      simp [ainsert, akeys]
      tauto
    · simp [ainsert, h0, akeys] at ih ⊢
      tauto

theorem mem_of_mem_ainsert {m : List (String × β)} {k : String} {v : β} {p : String × β}
    (h : p ∈ ainsert m k v) : p ∈ m ∨ p = (k, v) := by
  induction m with
  | nil => simpa [ainsert] using h
  | cons q rest ih =>
    obtain ⟨k0, v0⟩ := q
    by_cases h0 : k0 = k
    · subst h0
      simp [ainsert] at h
      rcases h with h | h
      · right; simp [h]
      · left; simp [h]
    · simp [ainsert, h0] at h
      rcases h with h | h
      · left; simp [h]
      · rcases ih h with h' | h'
        · left; simp [h']
        · right; exact h'

/-! ### C10 — empty-review short-circuit of `evaluate_deep_reviews` -/

/-- **C10.**  For the empty list of negative reviews,
`evaluate_deep_reviews` returns the fixed placeholder `pain_points` and
`requested_features` strings and performs no judgment call at all. -/
theorem deep_reviews_empty_short_circuit (gen : Nat → CallResult) :
    (evaluateDeepReviews gen []).painPoints = Json.str noReviewsPainText
    ∧ (evaluateDeepReviews gen []).requestedFeatures = Json.str noReviewsFeaturesText
    ∧ (evaluateDeepReviews gen []).callsMade = 0 := by
  refine ⟨rfl, rfl, rfl⟩

/-! ### C4 — `fetch_country_info` caches lookups (including not-found) -/

/-- **C4.**  For an iOS row with a store id: when the (lower-cased) target
country is not yet a key of the country map, the first call performs
exactly one external lookup and stores a value under that key, and a
second call for the same country performs no lookup and returns exactly
the stored value (the not-found marker included); when the key is already
present (metadata or marker), the call performs no lookup at all and
returns the cached entry unchanged. -/
theorem enrichment_caches_lookup {α : Type} (lookupApp : String → String → Option α)
    (item : AppItem α) (tc : String)
    (hplat : pyLower item.platform = iosPlatform) (hid : item.appStoreId ≠ "") :
    (alookup item.countryData (pyLower tc) = none →
      (fetchCountryInfo lookupApp item tc).lookupsPerformed = 1
      ∧ (fetchCountryInfo lookupApp (fetchCountryInfo lookupApp item tc).item tc).lookupsPerformed = 0
      ∧ ∃ v, alookup (fetchCountryInfo lookupApp item tc).item.countryData (pyLower tc) = some v
          ∧ (fetchCountryInfo lookupApp (fetchCountryInfo lookupApp item tc).item tc).status
              = FetchStatus.cached v
          ∧ (fetchCountryInfo lookupApp (fetchCountryInfo lookupApp item tc).item tc).item
              = (fetchCountryInfo lookupApp item tc).item
          ∧ (lookupApp item.appStoreId (pyLower tc) = none → v = CountryEntry.notFound))
    ∧ (∀ w, alookup item.countryData (pyLower tc) = some w →
        (fetchCountryInfo lookupApp item tc).lookupsPerformed = 0
        ∧ (fetchCountryInfo lookupApp item tc).status = FetchStatus.cached w
        ∧ (fetchCountryInfo lookupApp item tc).item = item) := by
  constructor
  · intro habs
    cases hl : lookupApp item.appStoreId (pyLower tc) with
    | some m =>
      refine ⟨?_, ?_, CountryEntry.meta m, ?_, ?_, ?_, ?_⟩ <;>
        simp [fetchCountryInfo, hplat, hid, habs, hl, alookup_ainsert_self]
    | none =>
      refine ⟨?_, ?_, CountryEntry.notFound, ?_, ?_, ?_, ?_⟩ <;>
        simp [fetchCountryInfo, hplat, hid, habs, hl, alookup_ainsert_self]
  · intro w hw
    refine ⟨?_, ?_, ?_⟩ <;> simp [fetchCountryInfo, hplat, hid, hw]

/-- Witness for C4 at a concrete input: an iOS item with an empty country
map, a lookup oracle that reports the app unavailable, and target
country `"US"` (stored lower-cased, as the not-found marker). -/
theorem enrichment_caches_lookup_witness :
    (fetchCountryInfo (fun _ _ => (none : Option Nat)) ⟨"ios", "42", "t", []⟩ "US").lookupsPerformed = 1
    ∧ (fetchCountryInfo (fun _ _ => (none : Option Nat))
        (fetchCountryInfo (fun _ _ => (none : Option Nat)) ⟨"ios", "42", "t", []⟩ "US").item
        "US").status = FetchStatus.cached CountryEntry.notFound := by
  have h := (enrichment_caches_lookup (fun _ _ => (none : Option Nat))
      ⟨"ios", "42", "t", []⟩ "US" (by decide) (by decide)).1 (by decide)
  obtain ⟨h1, _, v, _, hst, _, hnf⟩ := h
  exact ⟨h1, by rw [hst, hnf rfl]⟩

/-! ### C8 — `collect_detail` with a target country only touches that country -/

/-- Helper: the per-country body of `collect_detail` only ever writes the
key of the country it is processing. -/
theorem alookup_collectDetailCountry_ne {α : Type}
    (getReviews : String → String → String → List ReviewRecord)
    (gen : String → Nat → CallResult) (item : AppItem α)
    (detail : List (String × DeepEntry)) (c c' : String) (hne : c' ≠ c) :
    alookup (collectDetailCountry getReviews gen item detail c) c' = alookup detail c' := by
  simp only [collectDetailCountry]
  by_cases hbase : (alookup item.countryData c).isNone
  · rw [if_pos hbase]
  · rw [if_neg hbase]
    by_cases hrev : (if pyLower item.platform = iosPlatform ∧ item.appStoreId ≠ "" then
        getReviews item.appStoreId item.title c else []).isEmpty
    · rw [if_pos hrev]
      exact alookup_ainsert_ne _ _ _ _ hne
    · rw [if_neg hrev]
      exact alookup_ainsert_ne _ _ _ _ hne

/-- **C8.**  Re-collecting with a specific (non-empty) target country
changes at most that country's entry of the deep-analysis map: every
other country's stored entry is looked up unchanged afterwards. -/
theorem collect_detail_frame {α : Type}
    (getReviews : String → String → String → List ReviewRecord)
    (gen : String → Nat → CallResult) (item : AppItem α)
    (existing : Option (List (String × DeepEntry))) (c c' : String)
    (hc : c ≠ "") (hne : c' ≠ c) :
    alookup (collectDetail getReviews gen item existing (some c)).2 c'
      = alookup (existing.getD []) c' := by
  show alookup (List.foldl (collectDetailCountry getReviews gen item)
      (existing.getD []) (if c = "" then akeys item.countryData else [c])) c' = _
  rw [if_neg hc]
  show alookup (collectDetailCountry getReviews gen item (existing.getD []) c) c' = _
  exact alookup_collectDetailCountry_ne getReviews gen item _ c c' hne

/-- Witness for C8 at a concrete input: an item with metadata for `"us"`
and `"kr"` and an existing detail entry for `"kr"`; re-collecting `"us"`
leaves the `"kr"` entry unchanged. -/
theorem collect_detail_frame_witness :
    alookup (collectDetail (fun _ _ _ => []) (fun _ _ => CallResult.ok [])
        (⟨"ios", "42", "t", [("us", CountryEntry.meta 0), ("kr", CountryEntry.meta 1)]⟩ : AppItem Nat)
        (some [("kr", ⟨[], Json.null, Json.null⟩)]) (some "us")).2 "kr"
      = some ⟨[], Json.null, Json.null⟩ := by
  rw [collect_detail_frame (fun _ _ _ => []) (fun _ _ => CallResult.ok [])
      (⟨"ios", "42", "t", [("us", CountryEntry.meta 0), ("kr", CountryEntry.meta 1)]⟩ : AppItem Nat)
      (some [("kr", ⟨[], Json.null, Json.null⟩)]) "us" "kr" (by decide) (by decide)]
  rfl

/-! ### Gate lemmas shared by C1–C3 -/

theorem isRateLimitErr_elim {r : CallResult} (h : isRateLimitErr r = true) :
    ∃ m, r = CallResult.err m ∧ containsSub rateLimitMark m = true := by
  cases r with
  | ok t => simp [isRateLimitErr] at h
  | err m => exact ⟨m, rfl, h⟩

theorem containsSub_quota_self : containsSub tokenQuotaMark quotaText = true := by
  decide

/-- `evaluate_app_potential` reports the backoff sleeps and call count of
the single `_safe_generate` invocation it makes. -/
theorem evaluate_preserves_gen (calls : Nat → CallResult) :
    (evaluateAppPotential calls).backoffSleeps = (safeGenerate calls).backoffSleeps
    ∧ (evaluateAppPotential calls).callsMade = (safeGenerate calls).callsMade := by
  unfold evaluateAppPotential
  rcases h : (safeGenerate calls).outcome with e | t
  · by_cases hq : containsSub tokenQuotaMark e = true <;> simp [h, hq]
  · rcases hj : jsonLoads (cleanText t) with e | v
    · by_cases hq : containsSub tokenQuotaMark e = true <;> simp [h, hj, hq]
    · simp [h, hj]

theorem deleteAll_cons_of_not_pre (pat : List Char) (c : Char) (cs : List Char)
    (h : isPre pat (c :: cs) = false) :
    deleteAll pat (c :: cs) = c :: deleteAll pat cs := by
  show deleteAllAux pat (cs.length + 1) (c :: cs) = c :: deleteAllAux pat cs.length cs
  simp [deleteAllAux, h]

theorem pyStrip_cons_nonws (c : Char) (cs : List Char) (h : isWsChar c = false) :
    pyStrip (c :: cs) = c :: rstripWs cs := by
  unfold pyStrip
  rw [List.dropWhile_cons]
  simp [h, rstripWs]

theorem parseJson_headA (fuel : Nat) (cs : List Char) :
    parseJson fuel ('A' :: cs) = none := by
  cases fuel with
  | zero => rw [parseJson]
  | succ n =>
    rw [parseJson]
    have hws : skipWs ('A' :: cs) = 'A' :: cs := by
      unfold skipWs
      rw [List.dropWhile_cons]
      simp [isWsChar]
    rw [hws]
    simp

theorem isPre_backtick_of_A (ps cs : List Char) :
    isPre ('\x60' :: ps) ('A' :: cs) = false := by
  have h : ('\x60' : Char) ≠ 'A' := by decide
  simp [isPre, h]

theorem jsonLoads_headA (cs : List Char) :
    jsonLoads ('A' :: cs) = Except.error expectingValueText := by
  unfold jsonLoads
  rw [parseJson_headA]

/-- The text `"Analysis failed: " ++ msg` never JSON-parses, whatever the
message: the cleanup keeps its leading `A`. -/
theorem jsonLoads_analysisFailed (m : List Char) :
    jsonLoads (cleanText (analysisFailedText m)) = Except.error expectingValueText := by
  show jsonLoads (pyStrip (deleteAll ("```".toList)
      (deleteAll ("```json".toList) ("Analysis failed: ".toList ++ m)))) = _
  rw [show ("```json".toList) = '\x60' :: "``json".toList from rfl,
      show ("```".toList) = '\x60' :: "``".toList from rfl,
      show ("Analysis failed: ".toList ++ m) = 'A' :: ("nalysis failed: ".toList ++ m) from rfl]
  rw [deleteAll_cons_of_not_pre _ _ _ (isPre_backtick_of_A _ _)]
  rw [deleteAll_cons_of_not_pre _ _ _ (isPre_backtick_of_A _ _)]
  rw [pyStrip_cons_nonws _ _ (by decide)]
  exact jsonLoads_headA _

theorem jsonLoads_error_cases {cs e : List Char} (h : jsonLoads cs = Except.error e) :
    e = expectingValueText ∨ e = extraDataText := by
  unfold jsonLoads at h
  rcases hp : parseJson (2 * cs.length + 4) cs with _ | ⟨v, rest⟩
  · rw [hp] at h
    simp at h
    exact Or.inl h.symm
  · rw [hp] at h
    by_cases hw : (skipWs rest).isEmpty
    · simp [hw] at h
    · simp [hw] at h
      exact Or.inr h.symm

/-! ### C2 — rate-limit backoff and quota-exhaustion abort -/

/-- **C2.**  Consecutive rate-limit failures back off `20×1, 20×2, …`
seconds in order before retrying (first conjunct: `N < 3` rate-limit
errors followed by a success leave exactly those sleeps recorded); and the
third consecutive rate-limit failure raises the distinct quota-exhaustion
exception, which `evaluate_app_potential` re-raises instead of converting
into a rejected verdict (second conjunct). -/
theorem gate_quota_abort (calls : Nat → CallResult) :
    (∀ (k : Nat) (t : List Char), k < 3 →
        (∀ i, i < k → isRateLimitErr (calls i) = true) →
        calls k = CallResult.ok t →
        (safeGenerate calls).backoffSleeps = (List.range k).map (fun i => 20 * (i + 1))
        ∧ (safeGenerate calls).outcome = Except.ok (pyStrip t))
    ∧ ((∀ i, i < 3 → isRateLimitErr (calls i) = true) →
        (evaluateAppPotential calls).backoffSleeps = [20, 40, 60]
        ∧ (evaluateAppPotential calls).outcome = EvalOutcome.raised quotaText) := by
  constructor
  · intro k t hk h429 hok
    interval_cases k
    · constructor <;> simp [safeGenerate, safeGenAux, hok]
    · obtain ⟨m0, hm0, hc0⟩ := isRateLimitErr_elim (h429 0 (by omega))
      constructor <;> simp [safeGenerate, safeGenAux, hm0, hc0, hok, List.range_succ, List.range_zero]
    · obtain ⟨m0, hm0, hc0⟩ := isRateLimitErr_elim (h429 0 (by omega))
      obtain ⟨m1, hm1, hc1⟩ := isRateLimitErr_elim (h429 1 (by omega))
      constructor <;>
        simp [safeGenerate, safeGenAux, hm0, hc0, hm1, hc1, hok, List.range_succ, List.range_succ, List.range_zero]
  · intro h429
    obtain ⟨m0, hm0, hc0⟩ := isRateLimitErr_elim (h429 0 (by omega))
    obtain ⟨m1, hm1, hc1⟩ := isRateLimitErr_elim (h429 1 (by omega))
    obtain ⟨m2, hm2, hc2⟩ := isRateLimitErr_elim (h429 2 (by omega))
    constructor <;>
      simp [evaluateAppPotential, safeGenerate, safeGenAux, hm0, hc0, hm1, hc1, hm2, hc2,
        containsSub_quota_self]

/-- Witness for C2: three consecutive 429 errors at a concrete oracle. -/
theorem gate_quota_abort_witness :
    (evaluateAppPotential quotaCalls).backoffSleeps = [20, 40, 60]
    ∧ (evaluateAppPotential quotaCalls).outcome = EvalOutcome.raised quotaText := by
  exact (gate_quota_abort quotaCalls).2 (fun i _ => rfl)

/-! ### C3 — non-retryable errors and malformed JSON reject without retry -/

/-- **C3.**  First conjunct: a non-rate-limit judgment error at attempt
`k` (after `k` rate-limited attempts) stops retrying immediately — exactly
`k + 1` calls are made — and `evaluate_app_potential` returns (does not
raise) the failure verdict with `is_approved = false` and the error
recorded.  Second conjunct: a successful call whose text does not parse as
JSON likewise yields a returned verdict with `is_approved = false` and the
parse error recorded, after a single call. -/
theorem gate_nonretryable (calls : Nat → CallResult) :
    (∀ (k : Nat) (m : List Char), k < 3 →
        (∀ i, i < k → isRateLimitErr (calls i) = true) →
        calls k = CallResult.err m → containsSub rateLimitMark m = false →
        (evaluateAppPotential calls).callsMade = k + 1
        ∧ (evaluateAppPotential calls).outcome
            = EvalOutcome.verdict (errVerdict expectingValueText)
        ∧ approvedOf (errVerdict expectingValueText) = false
        ∧ jlookup (errVerdict expectingValueText) errorKey
            = some (Json.str (String.mk expectingValueText)))
    ∧ (∀ (t e : List Char), calls 0 = CallResult.ok t →
        jsonLoads (cleanText (pyStrip t)) = Except.error e →
        (evaluateAppPotential calls).callsMade = 1
        ∧ (evaluateAppPotential calls).outcome = EvalOutcome.verdict (errVerdict e)
        ∧ approvedOf (errVerdict e) = false
        ∧ jlookup (errVerdict e) errorKey = some (Json.str (String.mk e))) := by
  constructor
  · intro k m hk h429 herr hnc
    have hgen : safeGenerate calls
        = ⟨Except.ok (analysisFailedText m),
           (List.range k).map (fun i => 20 * (i + 1)), [], k + 1⟩ := by
      interval_cases k
      · simp [safeGenerate, safeGenAux, herr, hnc]
      · obtain ⟨m0, hm0, hc0⟩ := isRateLimitErr_elim (h429 0 (by omega))
        simp [safeGenerate, safeGenAux, hm0, hc0, herr, hnc, List.range_succ, List.range_zero]
      · obtain ⟨m0, hm0, hc0⟩ := isRateLimitErr_elim (h429 0 (by omega))
        obtain ⟨m1, hm1, hc1⟩ := isRateLimitErr_elim (h429 1 (by omega))
        simp [safeGenerate, safeGenAux, hm0, hc0, hm1, hc1, herr, hnc, List.range_succ,
          List.range_succ, List.range_zero]
    have hfalse : containsSub tokenQuotaMark expectingValueText = false := by decide
    refine ⟨?_, ?_, rfl, rfl⟩
    · unfold evaluateAppPotential
      rw [hgen]
      simp [jsonLoads_analysisFailed, hfalse]
    · unfold evaluateAppPotential
      rw [hgen]
      simp [jsonLoads_analysisFailed, hfalse]
  · intro t e hok hparse
    have hgen : safeGenerate calls = ⟨Except.ok (pyStrip t), [], [4], 1⟩ := by
      simp [safeGenerate, safeGenAux, hok]
    have hnc : containsSub tokenQuotaMark e = false := by
      rcases jsonLoads_error_cases hparse with h | h <;> rw [h] <;> decide
    refine ⟨?_, ?_, ?_, rfl⟩
    · unfold evaluateAppPotential
      rw [hgen]
      simp [hparse, hnc]
    · unfold evaluateAppPotential
      rw [hgen]
      simp [hparse, hnc]
    · unfold approvedOf
      rfl

/-- Witness for C3: a concrete non-429 failure on the first attempt. -/
theorem gate_nonretryable_witness :
    (evaluateAppPotential hardFailCalls).callsMade = 1
    ∧ (evaluateAppPotential hardFailCalls).outcome
        = EvalOutcome.verdict (errVerdict expectingValueText)
    ∧ approvedOf (errVerdict expectingValueText) = false := by
  have h := (gate_nonretryable hardFailCalls).1 0 ("boom".toList) (by omega)
      (fun i hi => absurd hi (by omega)) rfl (by decide)
  exact ⟨h.1, h.2.1, h.2.2.1⟩

/-! ### C1 — the gate trusts the top-level `is_approved` flag verbatim -/

/-- **C1, counterexample.**  `evaluate_app_potential` returns the parsed
judgment JSON verbatim: at a concrete response whose top-level
`is_approved` is `true` but whose `revenue_model` sub-criterion has
`pass: false`, the returned verdict still carries `is_approved = true` —
the candidate is *not* rejected, contradicting the claim that `approved`
holds iff all three sub-criteria pass. -/
theorem gate_top_flag_counterexample :
    (evaluateAppPotential inconsistentCalls).outcome
      = EvalOutcome.verdict inconsistentVerdict
    ∧ approvedOf inconsistentVerdict = true
    ∧ subPass inconsistentVerdict revenueModelKey = false := by
  refine ⟨rfl, rfl, rfl⟩

/-- **C1, amended.**  Whenever the first judgment call succeeds and its
cleaned text parses as JSON, `evaluate_app_potential` returns that parsed
value unchanged as the verdict — the approved flag is whatever the
response's top-level `is_approved` field says; it is not re-derived from
the three sub-criteria. -/
theorem gate_verdict_passthrough (calls : Nat → CallResult) (t : List Char) (v : Json)
    (h0 : calls 0 = CallResult.ok t)
    (hp : jsonLoads (cleanText (pyStrip t)) = Except.ok v) :
    (evaluateAppPotential calls).outcome = EvalOutcome.verdict v := by
  have hgen : safeGenerate calls = ⟨Except.ok (pyStrip t), [], [4], 1⟩ := by
    simp [safeGenerate, safeGenAux, h0]
  unfold evaluateAppPotential
  rw [hgen]
  simp [hp]

/-- Witness for the amended C1 at a concrete input. -/
theorem gate_verdict_passthrough_witness :
    (evaluateAppPotential emptyObjCalls).outcome = EvalOutcome.verdict (Json.obj []) := by
  exact gate_verdict_passthrough emptyObjCalls ("\x7b\x7d".toList) (Json.obj []) rfl rfl

/-! ### Harvester lemmas shared by C5 and C6 -/

/-- The entry loop computes: append all negatives of the page, truncated
to the cap of 100, provided the accumulator is still below the cap. -/
theorem harvestEntries_eq (es : List Entry) : ∀ acc : List ReviewRecord,
    acc.length < 100 →
    harvestEntries acc es = (acc ++ negativesOfEntries es).take 100 := by
  induction es with
  | nil =>
    intro acc h
    simp [harvestEntries, negativesOfEntries, List.take_of_length_le (Nat.le_of_lt h)]
  | cons e es ih =>
    intro acc h
    cases him : e.imRating with
    | none =>
      rw [show harvestEntries acc (e :: es) = harvestEntries acc es by
            simp [harvestEntries, him],
          show negativesOfEntries (e :: es) = negativesOfEntries es by
            simp [negativesOfEntries, List.filterMap_cons, negativeOfEntry, him]]
      exact ih acc h
    | some lbl =>
      by_cases hr : (parsePyInt (lbl.getD ratingDefaultLabel)).getD 5 ≤ 3
      · have hneg : negativesOfEntries (e :: es)
            = (⟨(parsePyInt (lbl.getD ratingDefaultLabel)).getD 5,
                (e.contentLabel.getD ""), (e.updatedLabel.getD "")⟩ : ReviewRecord)
              :: negativesOfEntries es := by
          simp [negativesOfEntries, List.filterMap_cons, negativeOfEntry, him, hr]
        have hunf : harvestEntries acc (e :: es)
            = (if 100 ≤ (acc ++ [(⟨(parsePyInt (lbl.getD ratingDefaultLabel)).getD 5,
                  (e.contentLabel.getD ""), (e.updatedLabel.getD "")⟩ : ReviewRecord)]).length then
                 acc ++ [⟨(parsePyInt (lbl.getD ratingDefaultLabel)).getD 5,
                   (e.contentLabel.getD ""), (e.updatedLabel.getD "")⟩]
               else harvestEntries (acc ++ [⟨(parsePyInt (lbl.getD ratingDefaultLabel)).getD 5,
                   (e.contentLabel.getD ""), (e.updatedLabel.getD "")⟩]) es) := by
          simp [harvestEntries, him, hr]
        rw [hunf, hneg]
        rw [show acc ++ (⟨(parsePyInt (lbl.getD ratingDefaultLabel)).getD 5,
              (e.contentLabel.getD ""), (e.updatedLabel.getD "")⟩ : ReviewRecord)
              :: negativesOfEntries es
            = (acc ++ [(⟨(parsePyInt (lbl.getD ratingDefaultLabel)).getD 5,
                (e.contentLabel.getD ""), (e.updatedLabel.getD "")⟩ : ReviewRecord)])
              ++ negativesOfEntries es by simp]
        by_cases hlen : 100 ≤ (acc ++ [(⟨(parsePyInt (lbl.getD ratingDefaultLabel)).getD 5,
            (e.contentLabel.getD ""), (e.updatedLabel.getD "")⟩ : ReviewRecord)]).length
        · rw [if_pos hlen]
          have h100 : (acc ++ [(⟨(parsePyInt (lbl.getD ratingDefaultLabel)).getD 5,
              (e.contentLabel.getD ""), (e.updatedLabel.getD "")⟩ : ReviewRecord)]).length = 100 := by
            simp only [List.length_append, List.length_singleton] at hlen ⊢
            omega
          rw [List.take_append_of_le_length (Nat.le_of_eq h100.symm),
              List.take_of_length_le (Nat.le_of_eq h100)]
        · rw [if_neg hlen]
          have hlt : (acc ++ [(⟨(parsePyInt (lbl.getD ratingDefaultLabel)).getD 5,
              (e.contentLabel.getD ""), (e.updatedLabel.getD "")⟩ : ReviewRecord)]).length < 100 := by
            omega
          rw [ih _ hlt]
      · have hneg : negativesOfEntries (e :: es) = negativesOfEntries es := by
          simp [negativesOfEntries, List.filterMap_cons, negativeOfEntry, him, hr]
        have hunf : harvestEntries acc (e :: es)
            = (if 100 ≤ acc.length then acc else harvestEntries acc es) := by
          simp [harvestEntries, him, hr]
        rw [hunf, hneg, if_neg (by omega)]
        exact ih acc h

/-- Every record the entry loop appends has rating ≤ 3. -/
theorem rating_le_of_mem_negatives {r : ReviewRecord} {es : List Entry}
    (h : r ∈ negativesOfEntries es) : r.rating ≤ 3 := by
  unfold negativesOfEntries at h
  rw [List.mem_filterMap] at h
  obtain ⟨e, _, he⟩ := h
  unfold negativeOfEntry at he
  cases him : e.imRating with
  | none => rw [him] at he; cases he
  | some lbl =>
    rw [him] at he
    simp only at he
    by_cases hr : (parsePyInt (lbl.getD ratingDefaultLabel)).getD 5 ≤ 3
    · rw [if_pos hr] at he
      cases he
      exact hr
    · rw [if_neg hr] at he
      cases he

/-- Page-loop computation when the good pages are followed by a stopping
page (empty entries or a non-200 status). -/
theorem harvestPages_eq_stop (feed : Nat → PageResult) :
    ∀ (k rem page : Nat) (acc : List ReviewRecord), k ≤ rem → acc.length < 100 →
    (∀ p, page ≤ p → p < page + k → ∃ es, feed p = PageResult.ok es ∧ es.isEmpty = false) →
    (feed (page + k) = PageResult.httpError ∨ feed (page + k) = PageResult.ok []) →
    harvestPages feed rem page acc = some ((acc ++ negsRange feed page k).take 100) := by
  intro k
  induction k with
  | zero =>
    intro rem page acc _ hacc _ hstop
    rw [show negsRange feed page 0 = [] by simp [negsRange]]
    rw [List.append_nil, List.take_of_length_le (Nat.le_of_lt hacc)]
    rcases rem with _ | rem'
    · rfl
    · rcases hstop with hstop | hstop <;>
        simp [harvestPages, Nat.add_zero] at hstop ⊢ <;> rw [hstop] <;> simp
  | succ k ih =>
    intro rem page acc hrem hacc hgood hstop
    rcases rem with _ | rem'
    · omega
    · obtain ⟨es, hfeed, hne⟩ := hgood page (Nat.le_refl _) (by omega)
      have hacc' := harvestEntries_eq es acc hacc
      have hrange : negsRange feed page (k + 1)
          = negativesOfEntries es ++ negsRange feed (page + 1) k := by
        unfold negsRange
        rw [List.range'_succ]
        simp [pageNegs, hfeed]
      rw [hrange]
      show (match feed page with
            | PageResult.exn => none
            | PageResult.httpError => some acc
            | PageResult.ok entries =>
              if entries.isEmpty then some acc
              else
                let acc' := harvestEntries acc entries
                if 100 ≤ acc'.length then some acc'
                else harvestPages feed rem' (page + 1) acc')
          = some ((acc ++ (negativesOfEntries es ++ negsRange feed (page + 1) k)).take 100)
      rw [hfeed]
      simp only [hne, Bool.false_eq_true, if_false, hacc']
      rw [show acc ++ (negativesOfEntries es ++ negsRange feed (page + 1) k)
          = (acc ++ negativesOfEntries es) ++ negsRange feed (page + 1) k by
            rw [List.append_assoc]]
      by_cases hcap : 100 ≤ ((acc ++ negativesOfEntries es).take 100).length
      · rw [if_pos hcap]
        have hlen : 100 ≤ (acc ++ negativesOfEntries es).length := by
          rw [List.length_take] at hcap
          omega
        rw [List.take_append_of_le_length hlen]
      · rw [if_neg hcap]
        have hlen : (acc ++ negativesOfEntries es).length < 100 := by
          rw [List.length_take] at hcap
          omega
        have hid : (acc ++ negativesOfEntries es).take 100 = acc ++ negativesOfEntries es :=
          List.take_of_length_le (Nat.le_of_lt hlen)
        rw [hid]
        have := ih rem' (page + 1) (acc ++ negativesOfEntries es) (by omega) hlen
          (fun p h1 h2 => hgood p (by omega) (by omega))
          (by rw [show page + 1 + k = page + (k + 1) by omega]; exact hstop)
        exact this

/-- Page-loop computation when every visited page is good (the data
outlasts the 10-page window). -/
theorem harvestPages_eq_all (feed : Nat → PageResult) :
    ∀ (rem page : Nat) (acc : List ReviewRecord), acc.length < 100 →
    (∀ p, page ≤ p → p < page + rem → ∃ es, feed p = PageResult.ok es ∧ es.isEmpty = false) →
    harvestPages feed rem page acc = some ((acc ++ negsRange feed page rem).take 100) := by
  intro rem
  induction rem with
  | zero =>
    intro page acc hacc _
    rw [show negsRange feed page 0 = [] by simp [negsRange]]
    rw [List.append_nil, List.take_of_length_le (Nat.le_of_lt hacc)]
    rfl
  | succ rem' ih =>
    intro page acc hacc hgood
    obtain ⟨es, hfeed, hne⟩ := hgood page (Nat.le_refl _) (by omega)
    have hacc' := harvestEntries_eq es acc hacc
    have hrange : negsRange feed page (rem' + 1)
        = negativesOfEntries es ++ negsRange feed (page + 1) rem' := by
      unfold negsRange
      rw [List.range'_succ]
      simp [pageNegs, hfeed]
    rw [hrange]
    show (match feed page with
          | PageResult.exn => none
          | PageResult.httpError => some acc
          | PageResult.ok entries =>
            if entries.isEmpty then some acc
            else
              let acc' := harvestEntries acc entries
              if 100 ≤ acc'.length then some acc'
              else harvestPages feed rem' (page + 1) acc')
        = some ((acc ++ (negativesOfEntries es ++ negsRange feed (page + 1) rem')).take 100)
    rw [hfeed]
    simp only [hne, Bool.false_eq_true, if_false, hacc']
    rw [show acc ++ (negativesOfEntries es ++ negsRange feed (page + 1) rem')
        = (acc ++ negativesOfEntries es) ++ negsRange feed (page + 1) rem' by
          rw [List.append_assoc]]
    by_cases hcap : 100 ≤ ((acc ++ negativesOfEntries es).take 100).length
    · rw [if_pos hcap]
      have hlen : 100 ≤ (acc ++ negativesOfEntries es).length := by
        rw [List.length_take] at hcap
        omega
      rw [List.take_append_of_le_length hlen]
    · rw [if_neg hcap]
      have hlen : (acc ++ negativesOfEntries es).length < 100 := by
        rw [List.length_take] at hcap
        omega
      rw [List.take_of_length_le (Nat.le_of_lt hlen)]
      exact ih (page + 1) (acc ++ negativesOfEntries es) hlen
        (fun p h1 h2 => hgood p (by omega) (by omega))

/-- Page-loop computation when an exception interrupts pagination before
the cap is reached: the whole loop is abandoned (`none`). -/
theorem harvestPages_exn (feed : Nat → PageResult) :
    ∀ (k rem page : Nat) (acc : List ReviewRecord), k < rem → acc.length < 100 →
    (∀ p, page ≤ p → p < page + k → ∃ es, feed p = PageResult.ok es ∧ es.isEmpty = false) →
    feed (page + k) = PageResult.exn →
    (acc ++ negsRange feed page k).length < 100 →
    harvestPages feed rem page acc = none := by
  intro k
  induction k with
  | zero =>
    intro rem page acc hrem _ _ hexn _
    rcases rem with _ | rem'
    · omega
    · rw [Nat.add_zero] at hexn
      show (match feed page with
            | PageResult.exn => none
            | PageResult.httpError => some acc
            | PageResult.ok entries =>
              if entries.isEmpty then some acc
              else
                let acc' := harvestEntries acc entries
                if 100 ≤ acc'.length then some acc'
                else harvestPages feed rem' (page + 1) acc') = none
      rw [hexn]
  | succ k ih =>
    intro rem page acc hrem hacc hgood hexn htotal
    rcases rem with _ | rem'
    · omega
    · obtain ⟨es, hfeed, hne⟩ := hgood page (Nat.le_refl _) (by omega)
      have hacc' := harvestEntries_eq es acc hacc
      have hrange : negsRange feed page (k + 1)
          = negativesOfEntries es ++ negsRange feed (page + 1) k := by
        unfold negsRange
        rw [List.range'_succ]
        simp [pageNegs, hfeed]
      rw [hrange] at htotal
      have hlen : (acc ++ negativesOfEntries es).length < 100 := by
        simp only [List.length_append] at htotal ⊢
        omega
      show (match feed page with
            | PageResult.exn => none
            | PageResult.httpError => some acc
            | PageResult.ok entries =>
              if entries.isEmpty then some acc
              else
                let acc' := harvestEntries acc entries
                if 100 ≤ acc'.length then some acc'
                else harvestPages feed rem' (page + 1) acc') = none
      rw [hfeed]
      simp only [hne, Bool.false_eq_true, if_false, hacc']
      rw [List.take_of_length_le (Nat.le_of_lt hlen), if_neg (by omega)]
      exact ih rem' (page + 1) (acc ++ negativesOfEntries es) (by omega) hlen
        (fun p h1 h2 => hgood p (by omega) (by omega))
        (by rw [show page + 1 + k = page + (k + 1) by omega]; exact hexn)
        (by rw [List.append_assoc]; simp only [List.length_append] at htotal ⊢; omega)

/-! ### C5 — harvester contract and cap -/

/-- **C5.**  On a well-formed feed with `j` data pages, `get_app_reviews`
returns the negatives held in pages 1..10 truncated to 100: hence at most
100 records, each with rating ≤ 3; exactly 100 when the feed holds at
least 100 negatives in those pages; all of them when it holds fewer; the
empty list for an empty first page; and an entry with an unparsable
rating label is treated as rating 5 and so contributes nothing. -/
theorem harvester_cap (feed : Nat → PageResult) (j : Nat) (hwf : wfFeed feed j) :
    getAppReviews feed = (negsUpTo feed j).take 100
    ∧ (getAppReviews feed).length ≤ 100
    ∧ (∀ r ∈ getAppReviews feed, r.rating ≤ 3)
    ∧ (100 ≤ (negsUpTo feed j).length → (getAppReviews feed).length = 100)
    ∧ ((negsUpTo feed j).length < 100 → getAppReviews feed = negsUpTo feed j)
    ∧ (j = 0 → getAppReviews feed = [])
    ∧ (∀ (e : Entry) (s : String), e.imRating = some (some s) → parsePyInt s = none →
        harvestEntries [] [e] = []) := by
  obtain ⟨hgood, hstop⟩ := hwf
  have hmain : getAppReviews feed = (negsUpTo feed j).take 100 := by
    unfold getAppReviews negsUpTo
    by_cases hj : j < 10
    · rw [min_eq_left (Nat.le_of_lt hj)]
      rw [harvestPages_eq_stop feed j 10 1 [] (by omega) (by simp)
          (fun p h1 h2 => hgood p h1 (by omega))
          (Or.inr (by rw [show 1 + j = j + 1 by omega]; exact hstop hj))]
      simp
    · rw [min_eq_right (by omega)]
      rw [harvestPages_eq_all feed 10 1 [] (by simp)
          (fun p h1 h2 => hgood p h1 (by omega))]
      simp
  refine ⟨hmain, ?_, ?_, ?_, ?_, ?_, ?_⟩
  · rw [hmain]
    exact List.length_take_le _ _
  · intro r hr
    rw [hmain] at hr
    have hr2 := List.take_subset _ _ hr
    unfold negsUpTo negsRange at hr2
    rw [List.mem_flatMap] at hr2
    obtain ⟨p, _, hp⟩ := hr2
    unfold pageNegs at hp
    rcases hfp : feed p with _ | _ | es <;> rw [hfp] at hp
    · cases hp
    · cases hp
    · exact rating_le_of_mem_negatives hp
  · intro hge
    rw [hmain, List.length_take]
    omega
  · intro hlt
    rw [hmain]
    exact List.take_of_length_le (Nat.le_of_lt hlt)
  · intro hj0
    subst hj0
    rw [hmain]
    simp [negsUpTo, negsRange]
  · intro e s him hnone
    simp [harvestEntries, him, hnone]

/-- Witness for C5 at a concrete one-page feed holding one 1-star review. -/
theorem harvester_cap_witness :
    getAppReviews onePageFeed = negsUpTo onePageFeed 1
    ∧ (getAppReviews onePageFeed).length ≤ 100
    ∧ getAppReviews onePageFeed = [⟨1, "bad", "d"⟩] := by
  have hwf : wfFeed onePageFeed 1 := by
    constructor
    · intro p h1 h2
      have hp : p = 1 := by omega
      subst hp
      exact ⟨[negEntry], rfl, rfl⟩
    · intro _
      rfl
  have h := harvester_cap onePageFeed 1 hwf
  refine ⟨h.2.2.2.2.1 (by decide), h.2.1, ?_⟩
  rw [h.2.2.2.2.1 (by decide)]
  rfl

/-! ### C6 — mid-pagination failure -/

/-- **C6, counterexample.**  At a concrete feed whose page 1 holds one
negative review and whose page 2 raises an exception, `get_app_reviews`
returns `[]` even though page 1's harvest was non-empty: the outer
`except` handler discards the already-collected reviews, contradicting
the claim that they are returned. -/
theorem harvester_discard_counterexample :
    getAppReviews exnFeed = []
    ∧ harvestEntries [] [negEntry] = [⟨1, "bad", "d"⟩] := by
  exact ⟨rfl, rfl⟩

/-- **C6, amended.**  A page request that completes with a non-200 status
or an empty entry list stops pagination and the reviews collected so far
are returned; but a page request that *raises* (network or JSON-decode
exception) abandons the whole call: the already-collected reviews are
discarded and the caller receives the empty list (still no error). -/
theorem harvester_midstop (feed : Nat → PageResult) (k : Nat) (hk : k < 10)
    (hgood : ∀ p, 1 ≤ p → p ≤ k → ∃ es, feed p = PageResult.ok es ∧ es.isEmpty = false) :
    ((feed (k + 1) = PageResult.httpError ∨ feed (k + 1) = PageResult.ok []) →
       getAppReviews feed = (negsRange feed 1 k).take 100)
    ∧ (feed (k + 1) = PageResult.exn → (negsRange feed 1 k).length < 100 →
       getAppReviews feed = []) := by
  constructor
  · intro hstop
    unfold getAppReviews
    rw [harvestPages_eq_stop feed k 10 1 [] (by omega) (by simp)
        (fun p h1 h2 => hgood p h1 (by omega))
        (by rw [show 1 + k = k + 1 by omega]; exact hstop)]
    simp
  · intro hexn htot
    unfold getAppReviews
    rw [harvestPages_exn feed k 10 1 [] (by omega) (by simp)
        (fun p h1 h2 => hgood p h1 (by omega))
        (by rw [show 1 + k = k + 1 by omega]; exact hexn)
        (by simpa using htot)]
    rfl

/-- Witness for the amended C6: a non-200 status on page 2 returns page
1's review, while an exception on page 2 returns the empty list. -/
theorem harvester_midstop_witness :
    getAppReviews httpStopFeed = [⟨1, "bad", "d"⟩]
    ∧ getAppReviews exnFeed = [] := by
  have hgood1 : ∀ p, 1 ≤ p → p ≤ 1 →
      ∃ es, httpStopFeed p = PageResult.ok es ∧ es.isEmpty = false := by
    intro p h1 h2
    have hp : p = 1 := by omega
    subst hp
    exact ⟨[negEntry], rfl, rfl⟩
  have hgood2 : ∀ p, 1 ≤ p → p ≤ 1 →
      ∃ es, exnFeed p = PageResult.ok es ∧ es.isEmpty = false := by
    intro p h1 h2
    have hp : p = 1 := by omega
    subst hp
    exact ⟨[negEntry], rfl, rfl⟩
  constructor
  · rw [(harvester_midstop httpStopFeed 1 (by omega) hgood1).1 (Or.inl rfl)]
    rfl
  · exact (harvester_midstop exnFeed 1 (by omega) hgood2).2 rfl (by decide)

/-! ### Collector lemmas shared by C7 and C9 -/

theorem alookup_mem {m : List (String × β)} {k : String} {v : β}
    (h : alookup m k = some v) : (k, v) ∈ m := by
  induction m with
  | nil => cases h
  | cons p rest ih =>
    obtain ⟨k0, v0⟩ := p
    by_cases h0 : k0 = k
    · subst h0
      rw [show alookup ((k0, v0) :: rest) k0 = some v0 by simp [alookup]] at h
      cases h
      exact List.mem_cons_self _ _
    · rw [show alookup ((k0, v0) :: rest) k = alookup rest k by simp [alookup, h0]] at h
      exact List.mem_cons_of_mem _ (ih h)

/-- One merge step keeps every country key of every stored candidate
inside a set that contains the event's country. -/
theorem keysFrom_candStep {α : Type} {cs0 : List String}
    {m : List (String × Candidate α)} {kw c : String} {a : SearchApp α}
    (hm : ∀ p ∈ m, ∀ c' ∈ akeys p.2.countryData, c' ∈ cs0) (hc : c ∈ cs0) :
    ∀ p ∈ candStep kw c m a, ∀ c' ∈ akeys p.2.countryData, c' ∈ cs0 := by
  intro p hp c' hc'
  cases hl : alookup m a.appId with
  | some cand0 =>
    rw [show candStep kw c m a
        = ainsert m a.appId
            { cand0 with countryData := ainsert cand0.countryData c a.meta } from by
          simp [candStep, hl]] at hp
    rcases mem_of_mem_ainsert hp with hmem | heq
    · exact hm p hmem c' hc'
    · rw [heq] at hc'
      rcases (mem_akeys_ainsert _ _ _ _).1 hc' with hold | hnew
      · exact hm (a.appId, cand0) (alookup_mem hl) c' hold
      · rw [hnew]
        exact hc
  | none =>
    rw [show candStep kw c m a
        = ainsert (ainsert m a.appId ⟨iosPlatform, a.appId, kw, []⟩) a.appId
            ⟨iosPlatform, a.appId, kw, ainsert [] c a.meta⟩ from by
          simp [candStep, hl, alookup_ainsert_self]] at hp
    rcases mem_of_mem_ainsert hp with hp1 | heq
    · rcases mem_of_mem_ainsert hp1 with hmem | heq2
      · exact hm p hmem c' hc'
      · rw [heq2] at hc'
        simp [akeys] at hc'
    · rw [heq] at hc'
      rcases (mem_akeys_ainsert _ _ _ _).1 hc' with hold | hnew
      · simp [akeys] at hold
      · rw [hnew]
        exact hc

theorem keysFrom_candCountry {α : Type} {cs0 : List String}
    (search : String → String → List (SearchApp α)) (kw c : String)
    (hc : c ∈ cs0) :
    ∀ (m : List (String × Candidate α)),
      (∀ p ∈ m, ∀ c' ∈ akeys p.2.countryData, c' ∈ cs0) →
      ∀ p ∈ candCountry search kw c m, ∀ c' ∈ akeys p.2.countryData, c' ∈ cs0 := by
  show ∀ m, _ → ∀ p ∈ (search kw c).foldl (candStep kw c) m, _
  induction search kw c with
  | nil => intro m hm; exact hm
  | cons a apps ih =>
    intro m hm
    exact ih _ (keysFrom_candStep hm hc)

theorem keysFrom_candCountries {α : Type} {cs0 : List String}
    (search : String → String → List (SearchApp α)) (kw : String) :
    ∀ (countries : List String), (∀ c ∈ countries, c ∈ cs0) →
    ∀ (m : List (String × Candidate α)),
      (∀ p ∈ m, ∀ c' ∈ akeys p.2.countryData, c' ∈ cs0) →
      ∀ p ∈ candCountries search kw countries m, ∀ c' ∈ akeys p.2.countryData, c' ∈ cs0 := by
  intro countries
  induction countries with
  | nil => intro _ m hm; exact hm
  | cons c cs ih =>
    intro hcs m hm
    exact ih (fun c' hc' => hcs c' (List.mem_cons_of_mem _ hc'))
      _ (keysFrom_candCountry search kw c (hcs c (List.mem_cons_self _ _)) m hm)

theorem keysFrom_candKeywords {α : Type} {cs0 : List String}
    (search : String → String → List (SearchApp α)) (maxPool : Nat)
    (countries : List String) (hcs : ∀ c ∈ countries, c ∈ cs0) :
    ∀ (kws : List String) (m : List (String × Candidate α)),
      (∀ p ∈ m, ∀ c' ∈ akeys p.2.countryData, c' ∈ cs0) →
      ∀ p ∈ candKeywords search maxPool countries kws m,
        ∀ c' ∈ akeys p.2.countryData, c' ∈ cs0 := by
  intro kws
  induction kws with
  | nil => intro m hm; exact hm
  | cons kw kws ih =>
    intro m hm
    show ∀ p ∈ (if maxPool ≤ m.length then m
        else candKeywords search maxPool countries kws (candCountries search kw countries m)), _
    by_cases hbreak : maxPool ≤ m.length
    · rw [if_pos hbreak]
      exact hm
    · rw [if_neg hbreak]
      exact ih _ (keysFrom_candCountries search kw countries hcs m hm)

/-! ### C9 — provenance and casing of country-map keys -/

/-- **C9, counterexample.**  `get_top_target_apps` stores country keys
verbatim: collecting with the country list `["US"]` produces a candidate
whose country map is keyed by `"US"`, which is not a lower-case code —
contradicting the claim that every operation leaves only lower-case
country keys. -/
theorem collection_keys_counterexample :
    getTopTargetApps constSearch (fun l => l) [] 40 ["k"] ["US"]
      = [⟨iosPlatform, "7", "k", [("US", ())]⟩]
    ∧ pyLower "US" ≠ "US" := by
  exact ⟨rfl, by decide⟩

/-- **C9, amended.**  `fetch_country_info` only ever adds the lower-cased
target country as a key (first conjunct), while `get_top_target_apps`
stores the caller-supplied country strings verbatim: every key of a
collected candidate's country map is one of the queried countries, so the
keys are lower-case exactly when the queried country list is (second and
third conjuncts). -/
theorem country_key_provenance {α : Type} (lookupApp : String → String → Option α)
    (item : AppItem α) (tc : String)
    (search : String → String → List (SearchApp α))
    (shuffle : List (Candidate α) → List (Candidate α)) (sampleKeywords : List String)
    (maxPool : Nat) (keywords countries : List String)
    (hperm : ∀ l, (shuffle l).Perm l) :
    (∀ k ∈ akeys (fetchCountryInfo lookupApp item tc).item.countryData,
        k ∈ akeys item.countryData ∨ k = pyLower tc)
    ∧ (∀ cand ∈ getTopTargetApps search shuffle sampleKeywords maxPool keywords countries,
        ∀ c ∈ akeys cand.countryData,
          c ∈ (if countries.isEmpty then defaultCountries else countries))
    ∧ ((∀ c ∈ (if countries.isEmpty then defaultCountries else countries), pyLower c = c) →
        ∀ cand ∈ getTopTargetApps search shuffle sampleKeywords maxPool keywords countries,
          ∀ c ∈ akeys cand.countryData, pyLower c = c) := by
  have hfetch : ∀ k ∈ akeys (fetchCountryInfo lookupApp item tc).item.countryData,
      k ∈ akeys item.countryData ∨ k = pyLower tc := by
    intro k hk
    unfold fetchCountryInfo at hk
    by_cases hplat : pyLower item.platform ≠ iosPlatform ∨ item.appStoreId = ""
    · rw [if_pos hplat] at hk
      exact Or.inl hk
    · rw [if_neg hplat] at hk
      rcases hl : alookup item.countryData (pyLower tc) with _ | v <;> rw [hl] at hk
      · rcases hl2 : lookupApp item.appStoreId (pyLower tc) with _ | mv <;> rw [hl2] at hk
        · exact (mem_akeys_ainsert _ _ _ _).1 hk
        · exact (mem_akeys_ainsert _ _ _ _).1 hk
      · exact Or.inl hk
  have hcoll : ∀ cand ∈ getTopTargetApps search shuffle sampleKeywords maxPool keywords countries,
      ∀ c ∈ akeys cand.countryData,
        c ∈ (if countries.isEmpty then defaultCountries else countries) := by
    intro cand hcand c hc
    unfold getTopTargetApps at hcand
    have hcand2 := List.take_subset _ _ hcand
    have hcand3 := (hperm _).mem_iff.1 hcand2
    rw [List.mem_map] at hcand3
    obtain ⟨p, hpmem, hpeq⟩ := hcand3
    have hkeys := keysFrom_candKeywords search maxPool
        (if countries.isEmpty then defaultCountries else countries)
        (fun c' hc' => hc')
        (if keywords.isEmpty then sampleKeywords else keywords) []
        (by intro p hp; cases hp)
        p hpmem
    rw [hpeq] at hkeys
    exact hkeys c hc
  exact ⟨hfetch, hcoll, fun hlc cand hcand c hc => hlc c (hcoll cand hcand c hc)⟩

/-- Witness for the amended C9 at concrete inputs: collecting with
lower-case countries `["us", "kr"]` and enriching with target `"GB"`. -/
theorem country_key_provenance_witness :
    (∀ k ∈ akeys (fetchCountryInfo (fun _ _ => (none : Option Unit))
        ⟨"ios", "7", "t", []⟩ "GB").item.countryData,
        k ∈ akeys ([] : List (String × CountryEntry Unit)) ∨ k = pyLower "GB")
    ∧ (∀ cand ∈ getTopTargetApps scenarioSearch (fun l => l) [] 40 ["Visual Timer"] ["us", "kr"],
        ∀ c ∈ akeys cand.countryData, pyLower c = c) := by
  have h := country_key_provenance (fun _ _ => (none : Option Unit))
      ⟨"ios", "7", "t", []⟩ "GB" scenarioSearch (fun l => l) [] 40
      ["Visual Timer"] ["us", "kr"] (fun l => List.Perm.refl l)
  exact ⟨h.1, h.2.2 (by decide)⟩

/-! ### C7 lemma stack: sizes, break-freedom, and the merge invariant -/

theorem length_ainsert_of_isSome {m : List (String × β)} {k : String} (v : β)
    (h : (alookup m k).isSome) : (ainsert m k v).length = m.length := by
  induction m with
  | nil => simp [alookup] at h
  | cons p rest ih =>
    obtain ⟨k0, v0⟩ := p
    by_cases h0 : k0 = k
    · simp [ainsert, h0]
    · rw [show alookup ((k0, v0) :: rest) k = alookup rest k by simp [alookup, h0]] at h
      simp [ainsert, h0, ih h]

theorem length_ainsert_le (m : List (String × β)) (k : String) (v : β) :
    (ainsert m k v).length ≤ m.length + 1 := by
  induction m with
  | nil => simp [ainsert]
  | cons p rest ih =>
    obtain ⟨k0, v0⟩ := p
    by_cases h0 : k0 = k
    · simp [ainsert, h0]
    · simp only [ainsert, h0, if_false, List.length_cons]
      omega

theorem candStep_length_le {α : Type} (kw c : String) (m : List (String × Candidate α))
    (a : SearchApp α) : (candStep kw c m a).length ≤ m.length + 1 := by
  cases hl : alookup m a.appId with
  | some cand0 =>
    rw [show candStep kw c m a
        = ainsert m a.appId
            { cand0 with countryData := ainsert cand0.countryData c a.meta } from by
          simp [candStep, hl]]
    rw [length_ainsert_of_isSome _ (by rw [hl]; rfl)]
    omega
  | none =>
    rw [show candStep kw c m a
        = ainsert (ainsert m a.appId ⟨iosPlatform, a.appId, kw, []⟩) a.appId
            ⟨iosPlatform, a.appId, kw, ainsert [] c a.meta⟩ from by
          simp [candStep, hl, alookup_ainsert_self]]
    rw [length_ainsert_of_isSome _ (by rw [alookup_ainsert_self]; rfl)]
    exact length_ainsert_le m _ _

theorem foldl_candStepEv_length_le {α : Type} :
    ∀ (evs : List (String × String × SearchApp α)) (m : List (String × Candidate α)),
      (List.foldl candStepEv m evs).length ≤ m.length + evs.length := by
  intro evs
  induction evs with
  | nil => intro m; simp
  | cons ev evs ih =>
    intro m
    calc (List.foldl candStepEv (candStepEv m ev) evs).length
        ≤ (candStepEv m ev).length + evs.length := ih _
      _ ≤ m.length + 1 + evs.length := by
          have h2 : (candStepEv m ev).length ≤ m.length + 1 :=
            candStep_length_le ev.1 ev.2.1 m ev.2.2
          omega
      _ = m.length + (ev :: evs).length := by simp; omega

theorem candCountry_eq_foldl {α : Type} (search : String → String → List (SearchApp α))
    (kw c : String) (m : List (String × Candidate α)) :
    candCountry search kw c m
      = List.foldl candStepEv m ((search kw c).map (fun a => (kw, c, a))) := by
  unfold candCountry
  rw [List.foldl_map]
  rfl

theorem candCountries_eq_foldl {α : Type} (search : String → String → List (SearchApp α))
    (kw : String) :
    ∀ (countries : List String) (m : List (String × Candidate α)),
      candCountries search kw countries m
        = List.foldl candStepEv m (countries.flatMap (fun c =>
            (search kw c).map (fun a => (kw, c, a)))) := by
  intro countries
  induction countries with
  | nil => intro m; rfl
  | cons c cs ih =>
    intro m
    rw [show candCountries search kw (c :: cs) m
        = candCountries search kw cs (candCountry search kw c m) from rfl]
    rw [ih, candCountry_eq_foldl, List.flatMap_cons, List.foldl_append]

theorem candKeywords_eq_foldl {α : Type} (search : String → String → List (SearchApp α))
    (maxPool : Nat) (countries : List String) :
    ∀ (kws : List String) (m : List (String × Candidate α)),
      m.length + (eventsOf search kws countries).length < maxPool →
      candKeywords search maxPool countries kws m
        = List.foldl candStepEv m (eventsOf search kws countries) := by
  intro kws
  induction kws with
  | nil => intro m _; rfl
  | cons kw kws ih =>
    intro m hsz
    have hev : eventsOf search (kw :: kws) countries
        = (countries.flatMap (fun c => (search kw c).map (fun a => (kw, c, a))))
          ++ eventsOf search kws countries := by
      unfold eventsOf
      rw [List.flatMap_cons]
    rw [hev] at hsz ⊢
    rw [show candKeywords search maxPool countries (kw :: kws) m
        = (if maxPool ≤ m.length then m
           else candKeywords search maxPool countries kws (candCountries search kw countries m))
        from rfl]
    rw [List.length_append] at hsz
    rw [if_neg (by omega)]
    rw [candCountries_eq_foldl, List.foldl_append]
    rw [ih _ (by
      have hle := foldl_candStepEv_length_le
        (countries.flatMap (fun c => (search kw c).map (fun a => (kw, c, a)))) m
      omega)]

theorem alookup_isSome_iff_mem_akeys (m : List (String × β)) (k : String) :
    (alookup m k).isSome ↔ k ∈ akeys m := by
  induction m with
  | nil => simp [alookup, akeys]
  | cons p rest ih =>
    obtain ⟨k0, v0⟩ := p
    by_cases h0 : k0 = k
    · subst h0
      simp [alookup, akeys]
    · rw [show alookup ((k0, v0) :: rest) k = alookup rest k by simp [alookup, h0],
          show akeys ((k0, v0) :: rest) = k0 :: akeys rest from rfl]
      rw [List.mem_cons, ih]
      constructor
      · exact Or.inr
      · rintro (h | h)
        · exact absurd h.symm h0
        · exact h

theorem akeys_ainsert_of_none {m : List (String × β)} {k : String} (v : β)
    (h : alookup m k = none) : akeys (ainsert m k v) = akeys m ++ [k] := by
  induction m with
  | nil => simp [ainsert, akeys]
  | cons p rest ih =>
    obtain ⟨k0, v0⟩ := p
    by_cases h0 : k0 = k
    · subst h0
      simp [alookup] at h
    · rw [show alookup ((k0, v0) :: rest) k = alookup rest k by simp [alookup, h0]] at h
      simp [ainsert, h0, akeys] at ih ⊢
      exact ih h

theorem akeys_ainsert_of_isSome {m : List (String × β)} {k : String} (v : β)
    (h : (alookup m k).isSome) : akeys (ainsert m k v) = akeys m := by
  induction m with
  | nil => simp [alookup] at h
  | cons p rest ih =>
    obtain ⟨k0, v0⟩ := p
    by_cases h0 : k0 = k
    · subst h0
      simp [ainsert, akeys]
    · rw [show alookup ((k0, v0) :: rest) k = alookup rest k by simp [alookup, h0]] at h
      simp [ainsert, h0, akeys] at ih ⊢
      exact ih h

theorem nodup_akeys_ainsert {m : List (String × β)} {k : String} (v : β)
    (h : (akeys m).Nodup) : (akeys (ainsert m k v)).Nodup := by
  cases hl : alookup m k with
  | none =>
    rw [akeys_ainsert_of_none v hl]
    have hk : k ∉ akeys m := by
      rw [← alookup_isSome_iff_mem_akeys, hl]
      simp
    simp [List.nodup_append, h, hk]
  | some w =>
    rw [akeys_ainsert_of_isSome v (by rw [hl]; rfl)]
    exact h

theorem mem_alookup_of_nodup {m : List (String × β)} {k : String} {v : β}
    (hnd : (akeys m).Nodup) (h : (k, v) ∈ m) : alookup m k = some v := by
  induction m with
  | nil => cases h
  | cons p rest ih =>
    obtain ⟨k0, v0⟩ := p
    rw [List.mem_cons] at h
    rcases h with h | h
    · cases h
      simp [alookup]
    · have hk0 : k0 ≠ k := by
        intro he
        subst he
        simp only [akeys, List.map_cons, List.nodup_cons, List.mem_map] at hnd
        exact hnd.1 ⟨(k0, v), h, rfl⟩
      rw [show alookup ((k0, v0) :: rest) k = alookup rest k by simp [alookup, hk0]]
      exact ih (by simp only [akeys, List.map_cons, List.nodup_cons] at hnd; exact hnd.2) h

/-- Processing one more event preserves the merge-map invariant. -/
theorem mergedInv_candStep {α : Type} {evs : List (String × String × SearchApp α)}
    {m : List (String × Candidate α)} (hInv : MergedInv evs m)
    (ev : String × String × SearchApp α) :
    MergedInv (evs ++ [ev]) (candStepEv m ev) := by
  obtain ⟨kw, c, a⟩ := ev
  obtain ⟨hnd, hiff, hfacts⟩ := hInv
  show MergedInv (evs ++ [(kw, c, a)]) (candStep kw c m a)
  cases hl : alookup m a.appId with
  | some cand0 =>
    obtain ⟨hplat0, hid0, hkw0, hcty0⟩ := hfacts a.appId cand0 hl
    have hm' : candStep kw c m a
        = ainsert m a.appId { cand0 with countryData := ainsert cand0.countryData c a.meta } := by
      simp [candStep, hl]
    rw [hm']
    refine ⟨nodup_akeys_ainsert _ hnd, ?_, ?_⟩
    · intro id
      by_cases hid : id = a.appId
      · subst hid
        rw [alookup_ainsert_self]
        simp [List.map_append]
      · rw [alookup_ainsert_ne _ _ _ _ hid, hiff id]
        simp [List.map_append, hid]
    · intro id cand hcand
      by_cases hid : id = a.appId
      · subst hid
        rw [alookup_ainsert_self] at hcand
        injection hcand with hceq
        subst hceq
        refine ⟨hplat0, hid0, ?_, ?_⟩
        · rw [List.find?_append]
          rcases hfind : evs.find? (fun ev => ev.2.2.appId == a.appId) with _ | ev0
          · rw [hfind] at hkw0
            simp at hkw0
          · rw [hfind] at hkw0
            rw [hfind, Option.or_some]
            exact hkw0
        · intro c'
          rw [show ({ cand0 with countryData := ainsert cand0.countryData c a.meta}
                : Candidate α).countryData = ainsert cand0.countryData c a.meta from rfl]
          rw [mem_akeys_ainsert]
          constructor
          · rintro (h | h)
            · obtain ⟨ev0, hev0, h1, h2⟩ := (hcty0 c').1 h
              exact ⟨ev0, List.mem_append_left _ hev0, h1, h2⟩
            · exact ⟨(kw, c, a), List.mem_append_right _ (by simp), rfl, h.symm⟩
          · rintro ⟨ev0, hev0, h1, h2⟩
            rcases List.mem_append.1 hev0 with hev0 | hev0
            · exact Or.inl ((hcty0 c').2 ⟨ev0, hev0, h1, h2⟩)
            · rw [List.mem_singleton] at hev0
              subst hev0
              exact Or.inr h2.symm
      · rw [alookup_ainsert_ne _ _ _ _ hid] at hcand
        obtain ⟨p1, p2, p3, p4⟩ := hfacts id cand hcand
        refine ⟨p1, p2, ?_, ?_⟩
        · rw [List.find?_append]
          rcases hfind : evs.find? (fun ev => ev.2.2.appId == id) with _ | ev0
          · rw [hfind] at p3
            simp at p3
          · rw [hfind] at p3
            rw [hfind, Option.or_some]
            exact p3
        · intro c'
          rw [p4 c']
          constructor
          · rintro ⟨ev0, hev0, h1, h2⟩
            exact ⟨ev0, List.mem_append_left _ hev0, h1, h2⟩
          · rintro ⟨ev0, hev0, h1, h2⟩
            rcases List.mem_append.1 hev0 with hev0 | hev0
            · exact ⟨ev0, hev0, h1, h2⟩
            · rw [List.mem_singleton] at hev0
              subst hev0
              exact absurd h1 (fun e => hid e.symm)
  | none =>
    have hnotin : a.appId ∉ evs.map (fun ev => ev.2.2.appId) := by
      intro hmem
      have := (hiff a.appId).2 hmem
      rw [hl] at this
      cases this
    have hm' : candStep kw c m a
        = ainsert (ainsert m a.appId ⟨iosPlatform, a.appId, kw, []⟩) a.appId
            ⟨iosPlatform, a.appId, kw, ainsert [] c a.meta⟩ := by
      simp [candStep, hl, alookup_ainsert_self]
    rw [hm']
    have hfnone : evs.find? (fun ev => ev.2.2.appId == a.appId) = none := by
      rw [List.find?_eq_none]
      intro ev0 hev0 hp
      exact hnotin (List.mem_map.2 ⟨ev0, hev0, by simpa using hp⟩)
    refine ⟨nodup_akeys_ainsert _ (nodup_akeys_ainsert _ hnd), ?_, ?_⟩
    · intro id
      by_cases hid : id = a.appId
      · subst hid
        rw [alookup_ainsert_self]
        simp [List.map_append]
      · rw [alookup_ainsert_ne _ _ _ _ hid, alookup_ainsert_ne _ _ _ _ hid, hiff id]
        simp [List.map_append, hid]
    · intro id cand hcand
      by_cases hid : id = a.appId
      · subst hid
        rw [alookup_ainsert_self] at hcand
        injection hcand with hceq
        subst hceq
        refine ⟨rfl, rfl, ?_, ?_⟩
        · rw [List.find?_append, hfnone]
          simp
        · intro c'
          rw [show (⟨iosPlatform, a.appId, kw, ainsert [] c a.meta⟩
                : Candidate α).countryData = [(c, a.meta)] from rfl]
          rw [show akeys [(c, a.meta)] = [c] from rfl, List.mem_singleton]
          constructor
          · intro h
            exact ⟨(kw, c, a), List.mem_append_right _ (by simp), rfl, h.symm⟩
          · rintro ⟨ev0, hev0, h1, h2⟩
            rcases List.mem_append.1 hev0 with hev0 | hev0
            · exact absurd (List.mem_map.2 ⟨ev0, hev0, h1⟩) hnotin
            · rw [List.mem_singleton] at hev0
              subst hev0
              exact h2.symm
      · rw [alookup_ainsert_ne _ _ _ _ hid, alookup_ainsert_ne _ _ _ _ hid] at hcand
        obtain ⟨p1, p2, p3, p4⟩ := hfacts id cand hcand
        refine ⟨p1, p2, ?_, ?_⟩
        · rw [List.find?_append]
          rcases hfind : evs.find? (fun ev => ev.2.2.appId == id) with _ | ev0
          · rw [hfind] at p3
            simp at p3
          · rw [hfind] at p3
            rw [hfind, Option.or_some]
            exact p3
        · intro c'
          rw [p4 c']
          constructor
          · rintro ⟨ev0, hev0, h1, h2⟩
            exact ⟨ev0, List.mem_append_left _ hev0, h1, h2⟩
          · rintro ⟨ev0, hev0, h1, h2⟩
            rcases List.mem_append.1 hev0 with hev0 | hev0
            · exact ⟨ev0, hev0, h1, h2⟩
            · rw [List.mem_singleton] at hev0
              subst hev0
              exact absurd h1 (fun e => hid e.symm)

/-- The merge-map invariant holds after folding any event list. -/
theorem mergedInv_foldl {α : Type} :
    ∀ (evs pre : List (String × String × SearchApp α)) (m : List (String × Candidate α)),
      MergedInv pre m → MergedInv (pre ++ evs) (List.foldl candStepEv m evs) := by
  intro evs
  induction evs with
  | nil =>
    intro pre m h
    simpa using h
  | cons ev evs ih =>
    intro pre m h
    rw [show pre ++ ev :: evs = (pre ++ [ev]) ++ evs by simp]
    exact ih (pre ++ [ev]) (candStepEv m ev) (mergedInv_candStep h ev)

/-- The empty map satisfies the invariant for the empty event list. -/
theorem mergedInv_nil {α : Type} : MergedInv ([] : List (String × String × SearchApp α)) [] := by
  refine ⟨List.nodup_nil, ?_, ?_⟩
  · intro id
    simp [alookup]
  · intro id cand h
    cases h

/-- The ids carried by the event stream are exactly `allIds`. -/
theorem eventsIds_eq {α : Type} (search : String → String → List (SearchApp α))
    (kws cs : List String) :
    (eventsOf search kws cs).map (fun ev => ev.2.2.appId) = allIds search kws cs := by
  unfold eventsOf allIds
  rw [List.map_flatMap]
  exact congrArg _ (funext fun kw => by
    rw [List.map_flatMap]
    exact congrArg _ (funext fun c => by rw [List.map_map]; rfl))

/-- The keyword of the first event carrying a given id is the first
keyword whose searches (over the country list) return that id. -/
theorem find?_eventsOf {α : Type} (search : String → String → List (SearchApp α))
    (id : String) (cs : List String) :
    ∀ kws : List String,
      ((eventsOf search kws cs).find? (fun ev => ev.2.2.appId == id)).map (fun ev => ev.1)
        = kws.find? (fun kw => cs.any (fun c => (search kw c).any (fun a => a.appId == id))) := by
  intro kws
  induction kws with
  | nil => rfl
  | cons kw kws ih =>
    rw [show eventsOf search (kw :: kws) cs
        = (cs.flatMap (fun c => (search kw c).map (fun a => (kw, c, a))))
          ++ eventsOf search kws cs from by
      unfold eventsOf
      rw [List.flatMap_cons]]
    rw [List.find?_append]
    by_cases hkw : cs.any (fun c => (search kw c).any (fun a => a.appId == id)) = true
    · have hsome : ((cs.flatMap (fun c => (search kw c).map (fun a => (kw, c, a)))).find?
          (fun ev => ev.2.2.appId == id)).isSome := by
        rw [List.find?_isSome]
        rw [List.any_eq_true] at hkw
        obtain ⟨c, hc, hc2⟩ := hkw
        rw [List.any_eq_true] at hc2
        obtain ⟨a, ha, ha2⟩ := hc2
        exact ⟨(kw, c, a), List.mem_flatMap.2 ⟨c, hc, List.mem_map.2 ⟨a, ha, rfl⟩⟩, ha2⟩
      rcases hfind : (cs.flatMap (fun c => (search kw c).map (fun a => (kw, c, a)))).find?
          (fun ev => ev.2.2.appId == id) with _ | ev0
      · rw [hfind] at hsome
        cases hsome
      · rw [hfind, Option.or_some]
        have hev0 := List.mem_of_find?_eq_some hfind
        have h1 : ev0.1 = kw := by
          rw [List.mem_flatMap] at hev0
          obtain ⟨c, _, hm⟩ := hev0
          rw [List.mem_map] at hm
          obtain ⟨a, _, he⟩ := hm
          rw [← he]
        rw [List.find?_cons, hkw]
        simp [h1]
    · have hnone : (cs.flatMap (fun c => (search kw c).map (fun a => (kw, c, a)))).find?
          (fun ev => ev.2.2.appId == id) = none := by
        rw [List.find?_eq_none]
        intro ev hev hp
        apply hkw
        rw [List.mem_flatMap] at hev
        obtain ⟨c, hc, hm⟩ := hev
        rw [List.mem_map] at hm
        obtain ⟨a, ha, he⟩ := hm
        rw [List.any_eq_true]
        refine ⟨c, hc, ?_⟩
        rw [List.any_eq_true]
        refine ⟨a, ha, ?_⟩
        rw [← he] at hp
        exact hp
      have hb : (cs.any fun c => (search kw c).any fun a => a.appId == id) = false := by
        revert hkw
        cases cs.any fun c => (search kw c).any fun a => a.appId == id
        · intro _
          rfl
        · intro hkw
          exact absurd rfl hkw
      rw [hnone, Option.none_or, List.find?_cons, hb]
      exact ih

/-- An event carrying (id, c) exists exactly when `c` is one of the
queried countries and some keyword's search in `c` returned `id`. -/
theorem mem_events_country {α : Type} (search : String → String → List (SearchApp α))
    (kws cs : List String) (id c : String) :
    (∃ ev ∈ eventsOf search kws cs, ev.2.2.appId = id ∧ ev.2.1 = c)
      ↔ (c ∈ cs ∧ ∃ kw ∈ kws, ∃ a ∈ search kw c, a.appId = id) := by
  constructor
  · rintro ⟨ev, hev, h1, h2⟩
    unfold eventsOf at hev
    rw [List.mem_flatMap] at hev
    obtain ⟨kw, hkw, hev⟩ := hev
    rw [List.mem_flatMap] at hev
    obtain ⟨c', hc', hev⟩ := hev
    rw [List.mem_map] at hev
    obtain ⟨a, ha, he⟩ := hev
    subst he
    cases h2
    exact ⟨hc', kw, hkw, a, ha, h1⟩
  · rintro ⟨hc, kw, hkw, a, ha, hid⟩
    refine ⟨(kw, c, a), ?_, hid, rfl⟩
    unfold eventsOf
    rw [List.mem_flatMap]
    exact ⟨kw, hkw, List.mem_flatMap.2 ⟨c, hc, List.mem_map.2 ⟨a, ha, rfl⟩⟩⟩

/-! ### C7 — collector dedup, country coverage, first-seen keyword -/

/-- **C7.**  For any run of `get_top_target_apps` over provided keywords
and countries (pool cap not reached, `random.shuffle` assumed to permute):
the returned candidates carry pairwise-distinct store ids; a store id
appears exactly when some (keyword, country) search returned it; each
candidate's country map has a key exactly for the queried countries whose
search returned its id under some keyword; and its `source_keyword` is the
first keyword (in list order) under which its id was seen. -/
theorem collector_dedup {α : Type} (search : String → String → List (SearchApp α))
    (shuffle : List (Candidate α) → List (Candidate α)) (sampleKeywords : List String)
    (maxPool : Nat) (keywords countries : List String)
    (hkw : keywords ≠ []) (hc : countries ≠ [])
    (hperm : ∀ l, (shuffle l).Perm l)
    (hsize : (allIds search keywords countries).length < maxPool) :
    ((getTopTargetApps search shuffle sampleKeywords maxPool keywords countries).map
        (fun cand => cand.appStoreId)).Nodup
    ∧ (∀ id, (∃ cand ∈ getTopTargetApps search shuffle sampleKeywords maxPool keywords countries,
          cand.appStoreId = id) ↔ id ∈ allIds search keywords countries)
    ∧ (∀ cand ∈ getTopTargetApps search shuffle sampleKeywords maxPool keywords countries,
        (∀ c, c ∈ akeys cand.countryData
            ↔ (c ∈ countries ∧ ∃ kw ∈ keywords, ∃ a ∈ search kw c, a.appId = cand.appStoreId))
        ∧ keywords.find? (fun kw => countries.any (fun c =>
              (search kw c).any (fun a => a.appId == cand.appStoreId)))
            = some cand.sourceKeyword) := by
  have hkwE : keywords.isEmpty = false := by
    cases keywords with
    | nil => exact absurd rfl hkw
    | cons a l => rfl
  have hcE : countries.isEmpty = false := by
    cases countries with
    | nil => exact absurd rfl hc
    | cons a l => rfl
  have hids : (eventsOf search keywords countries).map (fun ev => ev.2.2.appId)
      = allIds search keywords countries := eventsIds_eq search keywords countries
  have hlenevs : (eventsOf search keywords countries).length
      = (allIds search keywords countries).length := by
    rw [← hids, List.length_map]
  have hmerged : candKeywords search maxPool countries keywords []
      = List.foldl candStepEv [] (eventsOf search keywords countries) := by
    apply candKeywords_eq_foldl
    simp only [List.length_nil]
    omega
  have hInv := mergedInv_foldl (eventsOf search keywords countries) [] [] mergedInv_nil
  rw [List.nil_append] at hInv
  obtain ⟨hnd, hiff, hfacts⟩ := hInv
  have hmlen : (List.foldl candStepEv ([] : List (String × Candidate α))
      (eventsOf search keywords countries)).length < maxPool := by
    have hle := foldl_candStepEv_length_le (eventsOf search keywords countries)
      ([] : List (String × Candidate α))
    simp only [List.length_nil] at hle
    omega
  have hget : getTopTargetApps search shuffle sampleKeywords maxPool keywords countries
      = shuffle ((List.foldl candStepEv [] (eventsOf search keywords countries)).map Prod.snd) := by
    unfold getTopTargetApps
    rw [hkwE, hcE]
    simp only [Bool.false_eq_true, if_false]
    rw [hmerged]
    apply List.take_of_length_le
    rw [(hperm _).length_eq, List.length_map]
    omega
  have hmemval : ∀ cand,
      cand ∈ getTopTargetApps search shuffle sampleKeywords maxPool keywords countries
        ↔ alookup (List.foldl candStepEv [] (eventsOf search keywords countries))
            cand.appStoreId = some cand := by
    intro cand
    rw [hget, (hperm _).mem_iff, List.mem_map]
    constructor
    · rintro ⟨p, hp, rfl⟩
      have hlk := mem_alookup_of_nodup hnd
        (show (p.1, p.2) ∈ _ from by simpa using hp)
      obtain ⟨_, hsid, _, _⟩ := hfacts p.1 p.2 hlk
      rw [hsid]
      exact hlk
    · intro hlk
      exact ⟨(cand.appStoreId, cand), alookup_mem hlk, rfl⟩
  refine ⟨?_, ?_, ?_⟩
  · rw [hget]
    rw [((hperm _).map (fun cand => cand.appStoreId)).nodup_iff]
    rw [List.map_map]
    have hcongr : (List.foldl candStepEv ([] : List (String × Candidate α))
          (eventsOf search keywords countries)).map
            ((fun cand => cand.appStoreId) ∘ Prod.snd)
        = akeys (List.foldl candStepEv [] (eventsOf search keywords countries)) := by
      apply List.map_congr_left
      intro p hp
      have hlk := mem_alookup_of_nodup hnd (show (p.1, p.2) ∈ _ from by simpa using hp)
      obtain ⟨_, hsid, _, _⟩ := hfacts p.1 p.2 hlk
      exact hsid
    rw [hcongr]
    exact hnd
  · intro id
    constructor
    · rintro ⟨cand, hcand, rfl⟩
      have hlk := (hmemval cand).1 hcand
      have : (alookup (List.foldl candStepEv [] (eventsOf search keywords countries))
          cand.appStoreId).isSome := by
        rw [hlk]
        rfl
      rw [hiff, hids] at this
      exact this
    · intro hid
      have hsome : (alookup (List.foldl candStepEv [] (eventsOf search keywords countries))
          id).isSome := by
        rw [hiff, hids]
        exact hid
      rcases hlk : alookup (List.foldl candStepEv [] (eventsOf search keywords countries)) id
          with _ | cand
      · rw [hlk] at hsome
        cases hsome
      · obtain ⟨_, hsid, _, _⟩ := hfacts id cand hlk
        refine ⟨cand, (hmemval cand).2 (by rw [hsid]; exact hlk), hsid⟩
  · intro cand hcand
    have hlk := (hmemval cand).1 hcand
    obtain ⟨_, _, hkw0, hcty0⟩ := hfacts cand.appStoreId cand hlk
    constructor
    · intro c
      rw [hcty0 c]
      exact mem_events_country search keywords countries cand.appStoreId c
    · rw [← find?_eventsOf search cand.appStoreId countries keywords]
      exact hkw0

/-- Witness for C7: the spec's scenario — one keyword, countries
`["us", "kr"]`, both searches returning id `"111"` — yields one candidate
holding both country entries and the original keyword. -/
theorem collector_dedup_witness :
    ((getTopTargetApps scenarioSearch (fun l => l) [] 40 ["Visual Timer"] ["us", "kr"]).map
        (fun cand => cand.appStoreId)).Nodup
    ∧ getTopTargetApps scenarioSearch (fun l => l) [] 40 ["Visual Timer"] ["us", "kr"]
        = [⟨iosPlatform, "111", "Visual Timer", [("us", ()), ("kr", ())]⟩] := by
  refine ⟨(collector_dedup scenarioSearch (fun l => l) [] 40 ["Visual Timer"] ["us", "kr"]
      (by decide) (by decide) (fun l => List.Perm.refl l) (by decide)).1, ?_⟩
  rfl
